import Mathlib

/-!
Verification development for the Hybrid Retrieval and Ranking Engine of the
personal-wealth-manager repository (RAGService and its document chunking,
hybrid search, fusion, MMR diversification and section-bias stages).

Text is modelled as `List Char` (JavaScript strings are char sequences for the
operations used here); relevance scores are modelled as rationals `ℚ`
(idealising IEEE doubles: the algebra of the scoring pipeline, not float
rounding, is what the claims are about).  External collaborators (the tiktoken
encoder, the Chroma vector store) are modelled as explicit parameters.
-/

abbrev Str := List Char

/-- Whitespace test modelling the JavaScript `\s` class (ASCII parts). -/
def isWsChar (c : Char) : Bool :=
  c = ' ' ∨ c = '\t' ∨ c = '\n' ∨ c = '\r'

/-- Word-character test modelling the JavaScript `\w` class. -/
def isWordChar (c : Char) : Bool :=
  c.isAlpha ∨ c.isDigit ∨ c = '_'

/-- Split on a single separator character, modelling JavaScript
`String.prototype.split(sep)`: `n` separators yield `n+1` (possibly empty)
pieces. -/
def splitOnCharGo (sep : Char) : Str → Str → List Str
  | [], acc => [acc.reverse]
  | c :: rest, acc =>
      if c = sep then acc.reverse :: splitOnCharGo sep rest []
      else splitOnCharGo sep rest (c :: acc)

def splitOnChar (sep : Char) (s : Str) : List Str :=
  splitOnCharGo sep s []

/-- Split lines, modelling `text.split('\n')`. -/
def splitNl (s : Str) : List Str :=
  splitOnChar '\n' s

/-- Join with newlines, modelling `lines.join('\n')`. -/
def nlJoin : List Str → Str
  | [] => []
  | [l] => l
  | l :: ls => l ++ '\n' :: nlJoin ls

/-- Split on runs of whitespace, modelling `text.split(/\s+/)`: a leading
separator run yields an initial empty piece, a trailing one a final empty
piece, and the empty string yields `[""]`.  The `skipping` flag records that
we are inside a separator run. -/
def jsSplitWsGo : Str → Str → Bool → List Str
  | [], acc, skipping => if skipping then [[]] else [acc.reverse]
  | c :: rest, acc, skipping =>
      if isWsChar c then
        if skipping then jsSplitWsGo rest [] true
        else acc.reverse :: jsSplitWsGo rest [] true
      else jsSplitWsGo rest (c :: acc) false

def jsSplitWs (s : Str) : List Str :=
  jsSplitWsGo s [] false

/-- JavaScript `String.prototype.trim` (whitespace from both ends). -/
def jsTrim (s : Str) : Str :=
  ((s.dropWhile isWsChar).reverse.dropWhile isWsChar).reverse

/-- JavaScript `String.prototype.toLowerCase` (ASCII model). -/
def jsToLower (s : Str) : Str :=
  s.map Char.toLower

/-- RAG configuration constants (`RAGService.config`). -/
def chunkSizeConfig : Nat := 350
def chunkOverlapConfig : Nat := 60
def keywordBatchSizeConfig : Nat := 100
def maxKeywordPagesConfig : Nat := 20
def maxScanLimitConfig : Nat := 2000

/-- The token list of `tokenizeForBM25` before the length filter: lowercase,
replace punctuation (non-word, non-space characters) with spaces, split on
whitespace. -/
def rawTokens (text : Str) : List Str :=
  jsSplitWs ((jsToLower text).map
    (fun c => if isWordChar c ∨ isWsChar c then c else ' '))

/-- `tokenizeForBM25`: lowercase, replace punctuation with spaces, split on
whitespace, and keep only terms longer than two characters. -/
def tokenizeForBM25 (text : Str) : List Str :=
  (rawTokens text).filter (fun term => 2 < term.length)

/-- Retrieval-result channel (`source` field). -/
inductive RSource where
  | vector
  | keyword
  | hybrid
deriving DecidableEq, Repr

/-- The metadata fields of a retrieval result that the ranking stages read
(`chunkId` for the merge key, section names for the bias stage).  `section`
is a Lean keyword, hence `sectionName`. -/
structure RMeta where
  chunkId : Option Str := none
  sectionName : Option Str := none
  subsectionName : Option Str := none
deriving DecidableEq, Repr

/-- A scored candidate (`RetrievalResult`). -/
structure RetrievalResult where
  content : Str
  metadata : RMeta
  score : ℚ
  source : RSource
deriving DecidableEq, Repr

/-- `getResultKey`: `result.metadata.chunkId || result.content.substring(0, 100)`
(note the JavaScript falsy test: an empty `chunkId` also falls back to the
content prefix). -/
def getResultKey (result : RetrievalResult) : Str :=
  match result.metadata.chunkId with
  | some cid => if cid = [] then result.content.take 100 else cid
  | none => result.content.take 100

/-- Insertion-ordered map, modelling a JavaScript `Map`: `set` overwrites in
place when the key is present and appends otherwise. -/
def mapSet {β : Type} : List (Str × β) → Str → β → List (Str × β)
  | [], k, v => [(k, v)]
  | (k', v') :: rest, k, v =>
      if k' = k then (k, v) :: rest else (k', v') :: mapSet rest k v

/-- Lookup in the insertion-ordered map (`Map.prototype.get`). -/
def mapFind {β : Type} (m : List (Str × β)) (k : Str) : Option β :=
  (m.find? (fun p => p.1 = k)).map Prod.snd

/-- Stable insertion step for the descending-score sort: an element is placed
before the first element of strictly smaller score, and after existing
elements of equal score that occur earlier in the input. -/
def insertByScoreDesc (r : RetrievalResult) :
    List RetrievalResult → List RetrievalResult
  | [] => [r]
  | x :: xs =>
      if x.score ≤ r.score then r :: x :: xs else x :: insertByScoreDesc r xs

/-- Stable sort by descending score, modelling the ES2019-stable
`results.sort((a, b) => b.score - a.score)`. -/
def sortByScoreDesc (l : List RetrievalResult) : List RetrievalResult :=
  l.foldr insertByScoreDesc []

/-- Phase one of `fuseResults`: add the vector results to the map, weighted
by `alpha`, the source relabelled `hybrid`. -/
def fuseVectorPhase (vectorResults : List RetrievalResult) (alpha : ℚ) :
    List (Str × RetrievalResult) :=
  vectorResults.foldl
    (fun m result =>
      mapSet m (getResultKey result)
        { result with score := result.score * alpha, source := RSource.hybrid })
    []

/-- Phase two of `fuseResults`: merge the keyword results into the map,
weighted by `1 - alpha`; a key already present has the weighted keyword score
added to its record in place. -/
def fuseKeywordPhase (m : List (Str × RetrievalResult))
    (keywordResults : List RetrievalResult) (alpha : ℚ) :
    List (Str × RetrievalResult) :=
  keywordResults.foldl
    (fun m result =>
      match mapFind m (getResultKey result) with
      | some existing =>
          mapSet m (getResultKey result)
            { existing with score := existing.score + result.score * (1 - alpha) }
      | none =>
          mapSet m (getResultKey result)
            { result with score := result.score * (1 - alpha),
                          source := RSource.hybrid })
    m

/-- `fuseResults`: weighted fusion of the vector and keyword channels into a
single map keyed by `getResultKey`, returned as a score-sorted list. -/
def fuseResults (vectorResults keywordResults : List RetrievalResult)
    (alpha : ℚ) : List RetrievalResult :=
  sortByScoreDesc
    ((fuseKeywordPhase (fuseVectorPhase vectorResults alpha) keywordResults
        alpha).map Prod.snd)

/-- `calculateBM25Score`: BM25-style saturation with `k1 = 1.2`, `b = 0.75`
and a fixed assumed average document length of 100, averaged over the query
terms.  With an empty query-term list the JavaScript code computes `0/0 = NaN`
(which fails every `score > 0` test); in `ℚ` the same division yields `0`,
which fails the test identically. -/
def calculateBM25Score (queryTerms docTerms : List Str) (_totalDocs : Nat) : ℚ :=
  let k1 : ℚ := 6/5
  let b : ℚ := 3/4
  let avgDocLength : ℚ := 100
  let docLength : ℚ := (docTerms.length : ℚ)
  let score := queryTerms.foldl
    (fun score queryTerm =>
      let tf : ℚ := ((docTerms.count queryTerm : Nat) : ℚ)
      if 0 < tf then
        score + (tf * (k1 + 1)) / (tf + k1 * (1 - b + b * (docLength / avgDocLength)))
      else score)
    0
  score / ((queryTerms.length : Nat) : ℚ)

/-- `calculateContentSimilarity`: Jaccard similarity of the two BM25 token
sets (a JavaScript `Set` is modelled by `List.dedup`; only the cardinalities
matter). -/
def calculateContentSimilarity (text1 text2 : Str) : ℚ :=
  let tokens1 := (tokenizeForBM25 text1).dedup
  let tokens2 := (tokenizeForBM25 text2).dedup
  let inter := tokens1.filter (fun x => x ∈ tokens2)
  let union := (tokens1 ++ tokens2).dedup
  if 0 < union.length then (inter.length : ℚ) / (union.length : ℚ) else 0

/-- The MMR objective for one candidate:
`lambda * relevance - (1-lambda) * max_similarity_to_selected`
(`maxSimilarity` starts at 0, as in the code). -/
def mmrScoreOf (selected : List RetrievalResult) (candidate : RetrievalResult)
    (lambda : ℚ) : ℚ :=
  let maxSimilarity := selected.foldl
    (fun m sel => max m (calculateContentSimilarity candidate.content sel.content)) 0
  lambda * candidate.score - (1 - lambda) * maxSimilarity

/-- The inner argmax of `applyMMR`: starting from `bestScore = -Infinity`,
scan the remaining candidates and keep the first index whose MMR score
strictly exceeds the best so far (so the first candidate always replaces the
initial `-Infinity`, and ties keep the earlier index). -/
def mmrBestGo (selected : List RetrievalResult) (lambda : ℚ) :
    List RetrievalResult → Nat → Option (Nat × ℚ) → Option (Nat × ℚ)
  | [], _, best => best
  | c :: rest, i, best =>
      let s := mmrScoreOf selected c lambda
      match best with
      | none => mmrBestGo selected lambda rest (i + 1) (some (i, s))
      | some (bi, bs) =>
          if bs < s then mmrBestGo selected lambda rest (i + 1) (some (i, s))
          else mmrBestGo selected lambda rest (i + 1) (some (bi, bs))

def mmrBestIndex (selected remaining : List RetrievalResult) (lambda : ℚ) : Nat :=
  match mmrBestGo selected lambda remaining 0 none with
  | some (i, _) => i
  | none => 0

/-- The selection loop of `applyMMR`: while fewer than `topK` results are
selected and candidates remain, move the argmax candidate from `remaining`
to `selected`.  One unit of fuel is spent per removed candidate, so
`remaining.length` fuel is always enough. -/
def mmrLoop : Nat → List RetrievalResult → List RetrievalResult → Nat → ℚ →
    List RetrievalResult
  | 0, selected, _, _, _ => selected
  | fuel + 1, selected, remaining, topK, lambda =>
      if selected.length < topK ∧ remaining ≠ [] then
        let bi := mmrBestIndex selected remaining lambda
        match remaining.get? bi with
        | some best =>
            mmrLoop fuel (selected ++ [best]) (remaining.eraseIdx bi) topK lambda
        | none => selected
      else selected

/-- `applyMMR`: return the input unchanged when it already fits in `topK`;
otherwise seed with the first (highest-score) result and select the rest
greedily by MMR score. -/
def applyMMR (results : List RetrievalResult) (topK : Nat) (lambda : ℚ) :
    List RetrievalResult :=
  if results.length ≤ topK then results
  else
    match results with
    | [] => []
    | first :: rest => mmrLoop rest.length [first] rest topK lambda

/-- The priority-section test of `applySectionBias`: some priority string is
a case-insensitive substring of the candidate's section or subsection
(a missing section never matches). -/
def matchesPriority (result : RetrievalResult) (prioritySections : List Str) :
    Bool :=
  prioritySections.any fun priority =>
    (match result.metadata.sectionName with
     | some sec => decide (jsToLower priority <:+: jsToLower sec)
     | none => false)
    ||
    (match result.metadata.subsectionName with
     | some sub => decide (jsToLower priority <:+: jsToLower sub)
     | none => false)

/-- `applySectionBias`: no-op on an empty priority list; otherwise matching
candidates get `min(1.0, score + 0.2)` and the rest are unchanged. -/
def applySectionBias (results : List RetrievalResult)
    (prioritySections : List Str) : List RetrievalResult :=
  if prioritySections = [] then results
  else
    results.map fun result =>
      if matchesPriority result prioritySections then
        { result with score := min 1 (result.score + 1/5) }
      else result

/-- The externally owned Chroma collection as seen by `keywordSearch`:
`getCollection` may fail (a thrown error), and each paginated
`collection.get(limit, offset)` may fail or return a batch of
document/metadata pairs.  The metadata filters are applied by the store, so
the batch function already presents the filtered population. -/
structure ChromaEnv where
  getCollection : Except Str Unit
  getBatch : Nat → Nat → Except Str (List (Str × RMeta))

/-- The mutable state of the paginated keyword scan. -/
structure KWState where
  scoredResults : List RetrievalResult
  totalDocsProcessed : Nat
  currentOffset : Nat
  totalDocsEstimate : Nat
deriving Repr

/-- Score one batch: tokenize each document, score it against the query
terms, and keep it only when the score is positive (documents that are the
empty string are skipped by the JavaScript falsy guard). -/
def processBatch (queryTerms : List Str) (totalDocsEstimate : Nat)
    (batch : List (Str × RMeta)) (scored : List RetrievalResult) :
    List RetrievalResult :=
  scored ++ batch.filterMap fun dm =>
    if dm.1 = [] then none
    else
      let docTerms := tokenizeForBM25 (jsToLower dm.1)
      let score := calculateBM25Score queryTerms docTerms totalDocsEstimate
      if 0 < score then
        some { content := dm.1, metadata := dm.2, score := score,
               source := RSource.keyword }
      else none

/-- The paginated scan loop of `keywordSearch` (`for page < maxKeywordPages`):
stop at the scan ceiling, on a failed or empty batch (the per-batch
`try/catch` logs and breaks), after a short batch, or early once
`topK * 3` positive candidates exist and at least three pages were read. -/
def kwLoop (env : ChromaEnv) (queryTerms : List Str) (topK : Nat) :
    Nat → Nat → KWState → KWState
  | 0, _, s => s
  | fuel + 1, page, s =>
      if maxScanLimitConfig ≤ s.totalDocsProcessed then s
      else
        match env.getBatch keywordBatchSizeConfig s.currentOffset with
        | Except.error _ => s
        | Except.ok batch =>
            if batch = [] then s
            else
              let batchSize := batch.length
              let est :=
                if page = 0 ∧ batchSize = keywordBatchSizeConfig then
                  min maxScanLimitConfig (batchSize * maxKeywordPagesConfig)
                else s.totalDocsEstimate
              let scored := processBatch queryTerms est batch s.scoredResults
              let total := s.totalDocsProcessed + batchSize
              if topK * 3 ≤ scored.length ∧ 2 ≤ page then
                { scoredResults := scored, totalDocsProcessed := total,
                  currentOffset := s.currentOffset, totalDocsEstimate := est }
              else if batchSize < keywordBatchSizeConfig then
                { scoredResults := scored, totalDocsProcessed := total,
                  currentOffset := s.currentOffset + batchSize,
                  totalDocsEstimate := est }
              else
                kwLoop env queryTerms topK fuel (page + 1)
                  { scoredResults := scored, totalDocsProcessed := total,
                    currentOffset := s.currentOffset + batchSize,
                    totalDocsEstimate := est }

def kwInitState : KWState :=
  { scoredResults := [], totalDocsProcessed := 0, currentOffset := 0,
    totalDocsEstimate := 1000 }

/-- `keywordSearch`: acquire the collection (a failure here propagates),
tokenize the query, run the paginated scan, and return the positive-scoring
candidates sorted by descending score, truncated to `topK`. -/
def keywordSearch (env : ChromaEnv) (query : Str) (topK : Nat) :
    Except Str (List RetrievalResult) :=
  match env.getCollection with
  | Except.error e => Except.error e
  | Except.ok _ =>
      let queryTerms := tokenizeForBM25 (jsToLower query)
      let final := kwLoop env queryTerms topK maxKeywordPagesConfig 0 kwInitState
      Except.ok ((sortByScoreDesc final.scoredResults).take topK)

/-- A population-backed store: `collection.get(limit, offset)` returns the
next page of the (already filter-reduced) passage population and never
fails. -/
def envOfPopulation (pop : List (Str × RMeta)) : ChromaEnv :=
  { getCollection := Except.ok ()
    getBatch := fun limit offset => Except.ok ((pop.drop offset).take limit) }

def hybridAlphaConfig : ℚ := 7/10
def mmrLambdaConfig : ℚ := 2/5

/-- The external stages of a `retrieveDocuments` call: the outcome of the
vector channel (embedding generation plus the Chroma similarity query) and
the keyword channel's collection handle. -/
structure RetrieveEnv where
  vectorResults : Except Str (List RetrievalResult)
  chroma : ChromaEnv

/-- The message-wrapping re-throw of `retrieveDocuments`'s `catch` block. -/
def wrapRetrievalError (e : Str) : Str :=
  ("Failed to retrieve documents: ".data) ++ e

/-- `retrieveDocuments`: vector search, keyword search (both over-fetching
`min(topK*2, 20)`), fusion at `alpha = 0.7`, then MMR at `lambda = 0.4`.
Any exception from a stage is caught and re-thrown as a retrieval error. -/
def retrieveDocuments (env : RetrieveEnv) (query : Str) (topK : Nat) :
    Except Str (List RetrievalResult) :=
  match env.vectorResults with
  | Except.error e => Except.error (wrapRetrievalError e)
  | Except.ok vectorRes =>
      match keywordSearch env.chroma query (min (topK * 2) 20) with
      | Except.error e => Except.error (wrapRetrievalError e)
      | Except.ok keywordRes =>
          Except.ok (applyMMR (fuseResults vectorRes keywordRes hybridAlphaConfig)
            topK mmrLambdaConfig)

/-- Table-row test used by the boundary detector:
`line.includes('|') && line.split('|').length >= 3`. -/
def tableRowTest (line : Str) : Bool :=
  line.contains '|' && 3 ≤ (splitOnChar '|' line).length

/-- Formula test `/[=+\-*/]\s*\$?\d+/` (search anywhere): an operator
character, optional whitespace, an optional dollar sign, then a digit. -/
def afterOpMatches (rest : Str) : Bool :=
  match rest.dropWhile isWsChar with
  | '$' :: d :: _ => d.isDigit
  | d :: _ => d.isDigit
  | [] => false

def hasFormulaPattern : Str → Bool
  | [] => false
  | c :: rest =>
      ((c = '=' ∨ c = '+' ∨ c = '-' ∨ c = '*' ∨ c = '/') && afterOpMatches rest)
      || hasFormulaPattern rest

/-- Currency test `/\$\d+[,.]?\d*/` (search anywhere): the optional tail
adds nothing to a pure existence test, so this is a dollar sign followed by
a digit. -/
def hasCurrencyPattern : Str → Bool
  | [] => false
  | c :: rest =>
      (c = '$' && (match rest with | d :: _ => d.isDigit | [] => false))
      || hasCurrencyPattern rest

/-- Bullet-list test `/^[\s]*[-*•]\s+/`. -/
def bulletStartTest (line : Str) : Bool :=
  match line.dropWhile isWsChar with
  | c :: t =>
      (c = '-' ∨ c = '*' ∨ c = '•') &&
      (match t with | d :: _ => isWsChar d | [] => false)
  | [] => false

/-- Numbered-list test `/^[\s]*\d+\.?\s+/` (the optional dot is forced when
present: skipping it cannot create a match, since `\s+` never matches a
dot). -/
def numListStartTest (line : Str) : Bool :=
  let rest := line.dropWhile isWsChar
  let d1 := rest.takeWhile Char.isDigit
  if d1 = [] then false
  else
    let r1 := rest.drop d1.length
    let r2 := match r1 with | '.' :: t => t | _ => r1
    match r2 with | c :: _ => isWsChar c | [] => false

/-- Shared prefix parser for `/^\d+\.?\d*\.?\s+/`: on success, returns the
rest of the line after the (greedy, deterministic) match.  The character
classes digit, dot and whitespace are disjoint, so greedy matching agrees
with the regex's backtracking. -/
def numHeaderCore (s : Str) : Option Str :=
  let d1 := s.takeWhile Char.isDigit
  if d1 = [] then none
  else
    let r1 := s.drop d1.length
    let r2 := match r1 with | '.' :: t => t | _ => r1
    let d2 := r2.takeWhile Char.isDigit
    let r3 := r2.drop d2.length
    let r4 := match r3 with | '.' :: t => t | _ => r3
    let ws := r4.takeWhile isWsChar
    if ws = [] then none else some (r4.drop ws.length)

/-- Boundary-detector header test `/^\d+\.?\d*\.?\s+[A-Z]/`. -/
def numHeaderStartTest (line : Str) : Bool :=
  match numHeaderCore line with
  | some (c :: _) => c.isUpper
  | _ => false

/-- Tail condition of the anchored header regex
`/^(\d+\.?\d*\.?\s+[A-Z][^.]*[.:]?)$/`: after the uppercase letter the rest
must be dot-free, or dot-free followed by a single final dot (a `:` can sit
inside `[^.]*`, so it adds no extra case). -/
def dotTailOk (rest : Str) : Bool :=
  rest.count '.' = 0 ||
  (rest.getLast? = some '.' && (rest.dropLast.count '.' = 0))

/-- Anchored numbered-header test; the capture group is the whole line. -/
def numHeaderFullTest (line : Str) : Bool :=
  match numHeaderCore line with
  | some (c :: rest) => c.isUpper && dotTailOk rest
  | _ => false

/-- Markdown-header test `/^#+\s+/`. -/
def hashHeaderTest (line : Str) : Bool :=
  let hs := line.takeWhile (fun c => c = '#')
  hs ≠ [] &&
  (match line.drop hs.length with | c :: _ => isWsChar c | [] => false)

/-- Capture of `/^#+\s+(.+)$/` with the regex's greedy backtracking: the
capture is the text after the hash run and the whitespace run, except that
when the line ends in whitespace the `\s+` backs off one character so that
`.+` can match it (possible only when the whitespace run has length at
least two). -/
def matchHashHeaderCapture (line : Str) : Option Str :=
  let hs := line.takeWhile (fun c => c = '#')
  if hs = [] then none
  else
    let rest := line.drop hs.length
    let ws := rest.takeWhile isWsChar
    if ws = [] then none
    else
      let tail := rest.drop ws.length
      if tail ≠ [] then some tail
      else if 2 ≤ ws.length then some (ws.drop (ws.length - 1))
      else none

/-- `isSemanticBoundary`: table row, formula or currency pattern, list item,
or header. -/
def isSemanticBoundary (line : Str) : Bool :=
  tableRowTest line
  || (hasFormulaPattern line || hasCurrencyPattern line)
  || (bulletStartTest line || numListStartTest line)
  || (hashHeaderTest line || numHeaderStartTest line)

/-- A structural unit extracted by `extractSemanticUnit`. -/
structure SemanticUnit where
  content : Str
  linesProcessed : Nat
deriving DecidableEq, Repr

/-- Forward scan of a table block: consecutive table rows, tolerating a
blank line when the next line contains a pipe (a single `includes('|')`
here, unlike the row test). -/
def tableScanGo (lines : List Str) : Nat → Nat → Str → Nat → Str × Nat
  | 0, _, content, endIndex => (content, endIndex)
  | fuel + 1, i, content, endIndex =>
      match lines.get? i with
      | none => (content, endIndex)
      | some line =>
          if tableRowTest line then
            tableScanGo lines fuel (i + 1) (content ++ '\n' :: line) i
          else if jsTrim line = [] then
            if (match lines.get? (i + 1) with
                | some nxt => nxt.contains '|'
                | none => false) then
              tableScanGo lines fuel (i + 1) (content ++ '\n' :: line) i
            else (content, endIndex)
          else (content, endIndex)

/-- Forward scan of a numbered list: further numbered items, indented
continuations, and blank lines are absorbed. -/
def numListScanGo (lines : List Str) : Nat → Nat → Str → Nat → Str × Nat
  | 0, _, content, endIndex => (content, endIndex)
  | fuel + 1, i, content, endIndex =>
      match lines.get? i with
      | none => (content, endIndex)
      | some line =>
          if numListStartTest line
              || ((match line with | c :: _ => isWsChar c | [] => false)
                  && jsTrim line ≠ []) then
            numListScanGo lines fuel (i + 1) (content ++ '\n' :: line) i
          else if jsTrim line = [] then
            numListScanGo lines fuel (i + 1) (content ++ '\n' :: line) i
          else (content, endIndex)

/-- Forward scan of a bullet list (same shape as the numbered-list scan). -/
def bulletScanGo (lines : List Str) : Nat → Nat → Str → Nat → Str × Nat
  | 0, _, content, endIndex => (content, endIndex)
  | fuel + 1, i, content, endIndex =>
      match lines.get? i with
      | none => (content, endIndex)
      | some line =>
          if bulletStartTest line
              || ((match line with | c :: _ => isWsChar c | [] => false)
                  && jsTrim line ≠ []) then
            bulletScanGo lines fuel (i + 1) (content ++ '\n' :: line) i
          else if jsTrim line = [] then
            bulletScanGo lines fuel (i + 1) (content ++ '\n' :: line) i
          else (content, endIndex)

/-- `extractSemanticUnit`: starting at `startIndex`, extend a table,
numbered list, or bullet list to its natural end; any other line is a unit
by itself.  `linesProcessed = endIndex - startIndex + 1`. -/
def extractSemanticUnit (lines : List Str) (startIndex : Nat) : SemanticUnit :=
  match lines.get? startIndex with
  | none => { content := [], linesProcessed := 1 }
  | some startLine =>
      if startLine = [] then { content := [], linesProcessed := 1 }
      else
        let scan :=
          if startLine.contains '|' && 3 ≤ (splitOnChar '|' startLine).length then
            tableScanGo lines (lines.length - startIndex) (startIndex + 1)
              startLine startIndex
          else if numListStartTest startLine then
            numListScanGo lines (lines.length - startIndex) (startIndex + 1)
              startLine startIndex
          else if bulletStartTest startLine then
            bulletScanGo lines (lines.length - startIndex) (startIndex + 1)
              startLine startIndex
          else (startLine, startIndex)
        { content := scan.1, linesProcessed := scan.2 - startIndex + 1 }

/-- `extractOverlapContent`: walk the chunk's lines from the end, keeping
whole lines while the running per-line token total stays within the overlap
budget. -/
def overlapGo (encode : Str → Nat) (overlapTokens : Nat) :
    List Str → Str → Nat → Str
  | [], acc, _ => acc
  | line :: rest, acc, tokenCount =>
      if tokenCount + encode line ≤ overlapTokens then
        overlapGo encode overlapTokens rest
          (line ++ (if acc = [] then [] else '\n' :: acc))
          (tokenCount + encode line)
      else acc

def extractOverlapContent (chunk : Str) (overlapTokens : Nat)
    (encode : Str → Nat) : Str :=
  overlapGo encode overlapTokens (splitNl chunk).reverse [] 0

/-- A chunk with the metadata fields `createDocumentChunk` computes.  In the
current service the chunk-level spread entries come after the caller's
document-level metadata, so these fields are authoritative (the
document-level map is carried separately and modelled for the metadata-
precedence claim below). -/
structure DocumentChunk where
  content : Str
  chunkId : Str
  documentId : Str
  chunkIndex : Nat
  tokenCount : Nat
  hasTable : Bool
  hasFormula : Bool
  hasNumbers : Bool
  sectionName : Option Str
  subsectionName : Option Str
deriving DecidableEq, Repr

/-- The content-derived flags of `createDocumentChunk`. -/
def hasTableOf (content : Str) : Bool :=
  content.contains '|' && 6 ≤ (splitOnChar '|' content).length

def hasFormulaOf (content : Str) : Bool :=
  hasFormulaPattern content || hasCurrencyPattern content

def hasNumbersOf (content : Str) : Bool :=
  content.any Char.isDigit

/-- `createDocumentChunk`: token count from the encoder, content flags from
the passage text, id `{documentId}_chunk_{chunkIndex}`, section fields
included only when non-empty. -/
def createDocumentChunk (encode : Str → Nat) (content : Str)
    (documentId : Str) (chunkIndex : Nat) (sec sub : Str) : DocumentChunk :=
  { content := content
    chunkId := documentId ++ ("_chunk_".data) ++ (Nat.repr chunkIndex).data
    documentId := documentId
    chunkIndex := chunkIndex
    tokenCount := encode content
    hasTable := hasTableOf content
    hasFormula := hasFormulaOf content
    hasNumbers := hasNumbersOf content
    sectionName := if sec = [] then none else some sec
    subsectionName := if sub = [] then none else some sub }

/-- Normalize line endings: `\r\n` to `\n`, then stray `\r` to `\n`. -/
def normNewlines : Str → Str
  | [] => []
  | '\r' :: '\n' :: rest => '\n' :: normNewlines rest
  | '\r' :: rest => '\n' :: normNewlines rest
  | c :: rest => c :: normNewlines rest

/-- Collapse runs of spaces and tabs to a single space
(`replace(/[ \t]+/g, ' ')`). -/
def collapseSpTabGo : Str → Bool → Str
  | [], _ => []
  | c :: rest, inRun =>
      if c = ' ' ∨ c = '\t' then
        if inRun then collapseSpTabGo rest true
        else ' ' :: collapseSpTabGo rest true
      else c :: collapseSpTabGo rest false

/-- Collapse three or more newlines to two (`replace(/\n{3,}/g, '\n\n')`). -/
def collapseNlGo : Str → Nat → Str
  | [], _ => []
  | c :: rest, n =>
      if c = '\n' then
        if 2 ≤ n then collapseNlGo rest n else '\n' :: collapseNlGo rest (n + 1)
      else c :: collapseNlGo rest 0

/-- `preprocessDocumentContent`: normalize newlines and whitespace, trim
every line, and trim the whole text. -/
def preprocessDocumentContent (content : Str) : Str :=
  jsTrim (nlJoin
    ((splitNl (collapseNlGo (collapseSpTabGo (normNewlines content) false) 0)).map
      jsTrim))

/-- The accumulator of the chunking loop. -/
structure ChunkState where
  chunks : List DocumentChunk
  chunkIndex : Nat
  currentChunk : Str
  currentTokenCount : Nat
  currentSection : Str
  currentSubsection : Str
deriving Repr

/-- Section tracking: a markdown header sets the section (and clears the
subsection); an anchored numbered header sets the subsection (its capture is
the whole line). -/
def sectionUpdate (line : Str) (s : ChunkState) : ChunkState :=
  match matchHashHeaderCapture line with
  | some cap => { s with currentSection := jsTrim cap, currentSubsection := [] }
  | none =>
      if numHeaderFullTest line then { s with currentSubsection := jsTrim line }
      else s

/-- `overlap + (overlap ? '\n' : '') + cont`: the window restart text. -/
def ovCombine (ov cont : Str) : Str :=
  ov ++ (if ov = [] then [] else ['\n']) ++ cont

/-- One flush of the current window plus restart from overlap carry and the
given continuation text (a line or a structural unit's content). -/
def flushAndRestart (encode : Str → Nat) (documentId : Str)
    (s : ChunkState) (cont : Str) : ChunkState :=
  let chunk := createDocumentChunk encode (jsTrim s.currentChunk) documentId
    s.chunkIndex s.currentSection s.currentSubsection
  let overlap := extractOverlapContent s.currentChunk chunkOverlapConfig encode
  let newChunk := ovCombine overlap cont
  { s with chunks := s.chunks ++ [chunk], chunkIndex := s.chunkIndex + 1,
           currentChunk := newChunk, currentTokenCount := encode newChunk }

/-- The main line loop of `chunkDocument`.  Empty lines are skipped by the
falsy guard; the budget check flushes before the line that would overflow;
a semantic boundary may additionally flush to keep a structural unit
together, and skips the unit's lines (`i += linesProcessed - 1`). -/
def chunkLoop (encode : Str → Nat) (documentId : Str) (lines : List Str) :
    Nat → Nat → ChunkState → ChunkState
  | 0, _, s => s
  | fuel + 1, i, s =>
      match lines.get? i with
      | none => s
      | some line =>
          if line = [] then chunkLoop encode documentId lines fuel (i + 1) s
          else
            let lineTokens := encode line
            let s1 := sectionUpdate line s
            let potential := s1.currentTokenCount + lineTokens + 1
            let s2 :=
              if chunkSizeConfig < potential ∧ s1.currentChunk ≠ [] then
                flushAndRestart encode documentId s1 line
              else
                let newChunk :=
                  s1.currentChunk ++
                    (if s1.currentChunk = [] then [] else ['\n']) ++ line
                { s1 with currentChunk := newChunk,
                          currentTokenCount := potential }
            if isSemanticBoundary line then
              let u := extractSemanticUnit lines i
              if u.content ≠ [] then
                let s3 :=
                  if chunkSizeConfig < s2.currentTokenCount + encode u.content
                      ∧ s2.currentChunk ≠ [] then
                    flushAndRestart encode documentId s2 u.content
                  else s2
                chunkLoop encode documentId lines fuel (i + u.linesProcessed) s3
              else chunkLoop encode documentId lines fuel (i + 1) s2
            else chunkLoop encode documentId lines fuel (i + 1) s2

def chunkInitState : ChunkState :=
  { chunks := [], chunkIndex := 0, currentChunk := [],
    currentTokenCount := 0, currentSection := [], currentSubsection := [] }

/-- `chunkDocument` (semantic path): preprocess, walk the lines, and flush
the remaining window if its trimmed content is non-empty. -/
def chunkDocument (encode : Str → Nat) (content : Str) (documentId : Str) :
    List DocumentChunk :=
  let preprocessed := preprocessDocumentContent content
  let lines := splitNl preprocessed
  let final := chunkLoop encode documentId lines (lines.length + 1) 0
    chunkInitState
  if jsTrim final.currentChunk ≠ [] then
    final.chunks ++
      [createDocumentChunk encode (jsTrim final.currentChunk) documentId
        final.chunkIndex final.currentSection final.currentSubsection]
  else final.chunks

/-- A chunk produced by `fallbackChunking`: id
`{documentId}_fallback_{chunkIndex}`, table and formula flags pinned to
`false`. -/
def mkFallbackChunk (encode : Str → Nat) (documentId : Str) (content : Str)
    (chunkIndex : Nat) : DocumentChunk :=
  { content := content
    chunkId := documentId ++ ("_fallback_".data) ++ (Nat.repr chunkIndex).data
    documentId := documentId
    chunkIndex := chunkIndex
    tokenCount := encode content
    hasTable := false
    hasFormula := false
    hasNumbers := hasNumbersOf content
    sectionName := none
    subsectionName := none }

/-- The word loop of `fallbackChunking`. -/
def fallbackLoop (encode : Str → Nat) (documentId : Str) :
    List Str → Str → Nat → List DocumentChunk →
    List DocumentChunk × Str × Nat
  | [], currentChunk, chunkIndex, chunks => (chunks, currentChunk, chunkIndex)
  | word :: rest, currentChunk, chunkIndex, chunks =>
      let testChunk :=
        currentChunk ++ (if currentChunk = [] then [] else [' ']) ++ word
      if chunkSizeConfig < encode testChunk ∧ currentChunk ≠ [] then
        fallbackLoop encode documentId rest word (chunkIndex + 1)
          (chunks ++ [mkFallbackChunk encode documentId currentChunk chunkIndex])
      else fallbackLoop encode documentId rest testChunk chunkIndex chunks

/-- `fallbackChunking`: fixed-size chunking over whitespace-split words, no
overlap. -/
def fallbackChunking (encode : Str → Nat) (content : Str)
    (documentId : Str) : List DocumentChunk :=
  let words := jsSplitWs content
  let res := fallbackLoop encode documentId words [] 0 []
  if res.2.1 ≠ [] then
    res.1 ++ [mkFallbackChunk encode documentId res.2.1 res.2.2]
  else res.1

/-- Scoring of a scanned population prefix: exactly the per-document body of
the batch loop (tokenize, BM25 score, keep when positive).  The population
estimate is irrelevant to the score (the simplified BM25 omits IDF), so a
fixed value is used here; `processBatch` agrees with this definitionally. -/
def keywordScanScore (queryTerms : List Str) (docs : List (Str × RMeta)) :
    List RetrievalResult :=
  docs.filterMap fun dm =>
    if dm.1 = [] then none
    else
      let docTerms := tokenizeForBM25 (jsToLower dm.1)
      let score := calculateBM25Score queryTerms docTerms 0
      if 0 < score then
        some { content := dm.1, metadata := dm.2, score := score,
               source := RSource.keyword }
      else none

/-- The sum of the weighted keyword contributions `score * (1 - alpha)` of a
list of keyword hits. -/
def kwContrib (alpha : ℚ) (l : List RetrievalResult) : ℚ :=
  (l.map (fun r => r.score * (1 - alpha))).sum

/-- Chunk id of the semantic path: `{documentId}_chunk_{chunkIndex}`. -/
def mkChunkIdStr (documentId : Str) (chunkIndex : Nat) : Str :=
  documentId ++ ("_chunk_".data) ++ (Nat.repr chunkIndex).data

/-- Chunk id of the fallback path: `{documentId}_fallback_{chunkIndex}`. -/
def mkFallbackIdStr (documentId : Str) (chunkIndex : Nat) : Str :=
  documentId ++ ("_fallback_".data) ++ (Nat.repr chunkIndex).data

/-- Decimal value of a digit string; used to invert `Nat.repr`. -/
def digitsVal (l : List Char) : Nat :=
  l.foldl (fun a c => 10 * a + (c.toNat - '0'.toNat)) 0

/-- A JavaScript metadata value (the types that occur in chunk metadata). -/
inductive MVal where
  | str : Str → MVal
  | num : Nat → MVal
  | bool : Bool → MVal
deriving DecidableEq, Repr

/-- A JavaScript object literal as an ordered list of property writes; a
read observes the last write of the key, which is exactly the spread
semantics (`{...a, ...b}` lets `b` override `a`). -/
abbrev MObj := List (Str × MVal)

def objGet (o : MObj) (k : Str) : Option MVal :=
  (o.reverse.find? (fun p => p.1 = k)).map Prod.snd

/-- The chunk-level entries `createDocumentChunk` writes (both service
versions write the same entries; only their position relative to the
caller's `baseMetadata` spread differs). -/
def chunkBuiltins (encode : Str → Nat) (content documentId : Str)
    (chunkIndex : Nat) (sec sub : Str) : MObj :=
  [("chunkId".data, MVal.str (mkChunkIdStr documentId chunkIndex)),
   ("documentId".data, MVal.str documentId),
   ("chunkIndex".data, MVal.num chunkIndex),
   ("tokenCount".data, MVal.num (encode content)),
   ("hasTable".data, MVal.bool (hasTableOf content)),
   ("hasFormula".data, MVal.bool (hasFormulaOf content)),
   ("hasNumbers".data, MVal.bool (hasNumbersOf content))]
  ++ (if sec = [] then [] else [("section".data, MVal.str sec)])
  ++ (if sub = [] then [] else [("subsection".data, MVal.str sub)])

/-- Metadata built by the current (advanced) `createDocumentChunk`:
`{ ...baseMetadata, chunkId, ..., hasTable, ... }` — the document-level
spread comes first, so the chunk-level entries take precedence. -/
def createDocumentChunkMeta (encode : Str → Nat) (base : MObj)
    (content documentId : Str) (chunkIndex : Nat) (sec sub : Str) : MObj :=
  base ++ chunkBuiltins encode content documentId chunkIndex sec sub

/-- Metadata built by the legacy `createDocumentChunk` in
`backend/src/services/ragService.ts`:
`{ chunkId, ..., hasTable, ..., ...baseMetadata }` — the document-level
spread comes last, so it overrides the chunk-level entries. -/
def createDocumentChunkMetaLegacy (encode : Str → Nat) (base : MObj)
    (content documentId : Str) (chunkIndex : Nat) (sec sub : Str) : MObj :=
  chunkBuiltins encode content documentId chunkIndex sec sub ++ base

/-- Per-line token total of a string, as the overlap extractor counts it. -/
def lineTokenSum (encode : Str → Nat) (s : Str) : Nat :=
  ((splitNl s).map encode).sum

/-- The overlap-restart window form: an overlap carry whose per-line token
total is within the overlap budget, followed by a single document line or a
single extracted structural unit, the whole trimmed.  Oversized chunks can
only have this shape. -/
def OverlapRestartForm (encode : Str → Nat) (lines : List Str)
    (content : Str) : Prop :=
  ∃ ov rest, lineTokenSum encode ov ≤ chunkOverlapConfig ∧
    (rest ∈ lines ∨
      ∃ j, j < lines.length ∧ rest = (extractSemanticUnit lines j).content) ∧
    content = jsTrim (ovCombine ov rest)

/-- A chunk content that is exactly one structural unit: its first line is a
semantic boundary and the unit extractor started there consumes the whole
content. -/
def isSingleStructuralUnit (content : Str) : Bool :=
  match splitNl content with
  | first :: _ =>
      isSemanticBoundary first &&
      decide (extractSemanticUnit (splitNl content) 0 =
        { content := content, linesProcessed := (splitNl content).length })
  | [] => false

/-- The preprocessed line list of a document, over which the chunk loop
runs. -/
def chunkLines (content : Str) : List Str :=
  splitNl (preprocessDocumentContent content)

/-- Weighted character encoder used for concrete chunking runs: a line-
additive token model (`z` weighs 50, `y` weighs 10, every other character,
including the newline, weighs 1). -/
def wEnc (s : Str) : Nat :=
  (s.map (fun c => if c = 'z' then 50 else if c = 'y' then 10 else 1)).sum

/-- Document with a single oversized prose line (400 tokens under `wEnc`)
followed by a short line. -/
def docA : Str := "zzzzzzzz\nbb".data

/-- Document in which an overlap carry plus an under-budget table unit
produces an oversized middle chunk: a 300-token prose line, a 4-token prose
line, a 32-token table row, six 52-token table rows, and a trailing prose
line. -/
def docB : Str :=
  "zzzzzz\nqqqq\n|yyy|\n|yyyyy|\n|yyyyy|\n|yyyyy|\n|yyyyy|\n|yyyyy|\n|yyyyy|\nbb".data

/-- Concrete candidates for the fusion and MMR claims. -/
def rKeyA : RetrievalResult :=
  { content := "aaa".data, metadata := { chunkId := some "p1".data },
    score := 1, source := RSource.vector }

def rKeyB : RetrievalResult :=
  { content := "bbb".data, metadata := { chunkId := some "p2".data },
    score := 1/2, source := RSource.vector }

def rKeyA2 : RetrievalResult :=
  { content := "ccc".data, metadata := { chunkId := some "p1".data },
    score := 1/4, source := RSource.vector }

def rKw : RetrievalResult :=
  { content := "aaa".data, metadata := { chunkId := some "p1".data },
    score := 3/4, source := RSource.keyword }

def rSect : RetrievalResult :=
  { content := "ddd".data,
    metadata := { sectionName := some "Retirement Accounts".data },
    score := 9/10, source := RSource.hybrid }

/-- Environment for the error-handling claim: the vector channel succeeds,
the keyword collection is available, but every paginated batch fetch
throws. -/
def envBatchFail : RetrieveEnv :=
  { vectorResults := Except.ok [rKeyA]
    chroma :=
      { getCollection := Except.ok ()
        getBatch := fun _ _ => Except.error ("store down".data) } }

/-- A window (the untrimmed `currentChunk`) produced by the overlap-restart
path: overlap carry within the per-line overlap budget, followed by one
document line or one extracted structural unit. -/
def RestartWindow (encode : Str → Nat) (lines : List Str) (w : Str) : Prop :=
  ∃ ov rest, lineTokenSum encode ov ≤ chunkOverlapConfig ∧
    (rest ∈ lines ∨
      ∃ j, j < lines.length ∧ rest = (extractSemanticUnit lines j).content) ∧
    w = ovCombine ov rest

/-- Budget status of an emitted chunk: within the chunk budget, or of
overlap-restart form. -/
def ChunkBudgetGood (encode : Str → Nat) (lines : List Str)
    (c : DocumentChunk) : Prop :=
  c.tokenCount ≤ chunkSizeConfig ∨ OverlapRestartForm encode lines c.content

/-- Loop invariant for the chunk-budget claim: the tracked token count
bounds the window's actual count, the window is within budget or of restart
form, and every emitted chunk is budget-good. -/
def BudgetInv (encode : Str → Nat) (lines : List Str) (s : ChunkState) : Prop :=
  (s.currentChunk = [] ∨ encode s.currentChunk ≤ s.currentTokenCount) ∧
  (s.currentTokenCount ≤ chunkSizeConfig ∨
    RestartWindow encode lines s.currentChunk) ∧
  ∀ c ∈ s.chunks, ChunkBudgetGood encode lines c

/-- The id discipline of a chunk list: the chunk at position `j` carries the
id `mkId j`, index `j` and owner `documentId`. -/
def IdsOk (mkId : Nat → Str) (documentId : Str)
    (l : List DocumentChunk) : Prop :=
  ∀ j (h : j < l.length),
    (l.get ⟨j, h⟩).chunkId = mkId j ∧
    (l.get ⟨j, h⟩).chunkIndex = j ∧
    (l.get ⟨j, h⟩).documentId = documentId

/-- Loop invariant for the passage-id claim: the running chunk index equals
the number of emitted chunks, and every emitted chunk carries the id
`{documentId}_chunk_{position}`. -/
def IdInv (documentId : Str) (s : ChunkState) : Prop :=
  s.chunkIndex = s.chunks.length ∧
  IdsOk (mkChunkIdStr documentId) documentId s.chunks

/-- Environment whose vector channel (embedding + similarity query) throws. -/
def envVecFail : RetrieveEnv :=
  { vectorResults := Except.error ("embedding down".data)
    chroma :=
      { getCollection := Except.ok ()
        getBatch := fun _ _ => Except.ok [] } }

/-! ## Theorems -/

/-- Claim C5: `applySectionBias` with an empty priority list returns the
candidate list unchanged (no boost, no reordering); with a non-empty list it
preserves length and positions, raises each matching candidate's score to
`min(1.0, score + 0.2)` (so a 0.9-scored candidate ends at most at 1.0), and
leaves non-matching candidates untouched. -/
theorem C5_applySectionBias (results : List RetrievalResult)
    (prioritySections : List Str) :
    (prioritySections = [] → applySectionBias results prioritySections = results) ∧
    (applySectionBias results prioritySections).length = results.length ∧
    (prioritySections ≠ [] →
      ∀ i (h1 : i < (applySectionBias results prioritySections).length)
        (h2 : i < results.length),
        (matchesPriority (results.get ⟨i, h2⟩) prioritySections = true →
          (applySectionBias results prioritySections).get ⟨i, h1⟩ =
            { results.get ⟨i, h2⟩ with
                score := min 1 ((results.get ⟨i, h2⟩).score + 1/5) }) ∧
        (matchesPriority (results.get ⟨i, h2⟩) prioritySections = false →
          (applySectionBias results prioritySections).get ⟨i, h1⟩ =
            results.get ⟨i, h2⟩)) := by
  refine ⟨fun h => by simp [applySectionBias, h], ?_, ?_⟩
  · by_cases h : prioritySections = [] <;> simp [applySectionBias, h]
  · intro hne i h1 h2
    have hmap : applySectionBias results prioritySections =
        results.map (fun result =>
          if matchesPriority result prioritySections then
            { result with score := min 1 (result.score + 1/5) }
          else result) := by
      unfold applySectionBias
      rw [if_neg hne]
    constructor
    · intro hm
      simp only [List.get_eq_getElem] at hm ⊢
      simp only [hmap, List.getElem_map, hm, if_true]
    · intro hm
      simp only [List.get_eq_getElem] at hm ⊢
      simp only [hmap, List.getElem_map, hm, Bool.false_eq_true, if_false]

/-- Witness for C5 at a concrete matching candidate. -/
theorem C5_witness :
    (["retire".data] ≠ ([] : List Str)) ∧
    matchesPriority rSect ["retire".data] = true ∧
    (applySectionBias [rSect] ["retire".data]).get ⟨0, by decide⟩ =
      { rSect with score := min 1 (rSect.score + 1/5) } :=
  ⟨by decide, by decide,
    ((C5_applySectionBias [rSect] ["retire".data]).2.2 (by decide) 0
      (by decide) (by decide)).1 (by decide)⟩

theorem calculateBM25Score_nil (docTerms : List Str) (n : Nat) :
    calculateBM25Score [] docTerms n = 0 := by
  simp [calculateBM25Score]

theorem keywordScanScore_nil_terms (docs : List (Str × RMeta)) :
    keywordScanScore [] docs = [] := by
  unfold keywordScanScore
  rw [List.filterMap_eq_nil_iff]
  intro dm _
  by_cases h : dm.1 = []
  · simp [h]
  · simp [h, calculateBM25Score_nil]

theorem processBatch_eq_scanScore (queryTerms : List Str) (est : Nat)
    (batch : List (Str × RMeta)) (scored : List RetrievalResult) :
    processBatch queryTerms est batch scored =
      scored ++ keywordScanScore queryTerms batch := rfl

theorem kwLoop_scored_nil_terms (env : ChromaEnv) (topK : Nat) :
    ∀ fuel page s, s.scoredResults = [] →
      (kwLoop env [] topK fuel page s).scoredResults = [] := by
  intro fuel
  induction fuel with
  | zero => intro page s h; exact h
  | succ fuel ih =>
    intro page s h
    rw [kwLoop]
    split
    · exact h
    · split
      · exact h
      · next batch _ =>
        split
        · exact h
        · simp only [processBatch_eq_scanScore, keywordScanScore_nil_terms,
            List.append_nil, h]
          split
          · rfl
          · split
            · rfl
            · exact ih _ _ rfl

/-- Claim C10: when no query token survives tokenization (every
whitespace-separated piece after lowercasing and punctuation replacement is
shorter than three characters), the BM25 term list is empty, every
per-passage score is the degenerate `0/0` division (`NaN` in JavaScript,
`0` in the rational model — either way it fails the `score > 0` inclusion
test), and `keywordSearch` returns the empty result list over any passage
population. -/
theorem C10_keywordSearch_short_query (pop : List (Str × RMeta))
    (query : Str) (topK : Nat)
    (h : ∀ t ∈ rawTokens (jsToLower query), t.length < 3) :
    keywordSearch (envOfPopulation pop) query topK = Except.ok [] := by
  have hterms : tokenizeForBM25 (jsToLower query) = [] := by
    rw [tokenizeForBM25, List.filter_eq_nil_iff]
    intro t ht
    have := h t ht
    simp only [decide_eq_true_eq]
    omega
  rw [keywordSearch]
  simp only [envOfPopulation]
  rw [hterms]
  rw [kwLoop_scored_nil_terms _ _ _ _ _ rfl]
  simp [sortByScoreDesc]

/-- Witness for C10: a query whose tokens are all too short, over a
non-empty population. -/
theorem C10_witness :
    (∀ t ∈ rawTokens (jsToLower "a b?!".data), t.length < 3) ∧
    keywordSearch
      (envOfPopulation [("individual retirement account".data, {})])
      "a b?!".data 5 = Except.ok [] :=
  ⟨by decide,
    C10_keywordSearch_short_query [("individual retirement account".data, {})]
      "a b?!".data 5 (by decide)⟩

theorem mmrBestGo_some (sel : List RetrievalResult) (lam : ℚ) :
    ∀ (l : List RetrievalResult) (i : Nat) (p : Nat × ℚ),
      ∃ q, mmrBestGo sel lam l i (some p) = some q ∧
        (q = p ∨ (i ≤ q.1 ∧ q.1 < i + l.length)) := by
  intro l
  induction l with
  | nil => exact fun i p => ⟨p, rfl, Or.inl rfl⟩
  | cons c rest ih =>
    intro i p
    obtain ⟨bi, bs⟩ := p
    rw [mmrBestGo]
    by_cases hlt : bs < mmrScoreOf sel c lam
    · rw [if_pos hlt]
      obtain ⟨q, hq, hb⟩ := ih (i + 1) (i, mmrScoreOf sel c lam)
      refine ⟨q, hq, Or.inr ?_⟩
      rcases hb with hb | hb
      · subst hb; simp only [List.length_cons]; omega
      · simp only [List.length_cons]; omega
    · rw [if_neg hlt]
      obtain ⟨q, hq, hb⟩ := ih (i + 1) (bi, bs)
      refine ⟨q, hq, ?_⟩
      rcases hb with hb | hb
      · exact Or.inl hb
      · exact Or.inr ⟨by omega, by simp only [List.length_cons]; omega⟩

theorem mmrBestIndex_lt (sel rem : List RetrievalResult) (lam : ℚ)
    (h : rem ≠ []) : mmrBestIndex sel rem lam < rem.length := by
  cases rem with
  | nil => exact absurd rfl h
  | cons c rest =>
    rw [mmrBestIndex, mmrBestGo]
    obtain ⟨q, hq, hb⟩ := mmrBestGo_some sel lam rest 1 (0, mmrScoreOf sel c lam)
    rw [hq]
    rcases hb with hb | hb
    · subst hb; simp
    · simp only [List.length_cons]; omega

theorem cons_eraseIdx_perm {α : Type} :
    ∀ (l : List α) (i : Nat) (h : i < l.length),
      (l.get ⟨i, h⟩ :: l.eraseIdx i).Perm l := by
  intro l
  induction l with
  | nil => intro i h; simp at h
  | cons a l ih =>
    intro i h
    cases i with
    | zero => simp [List.eraseIdx]
    | succ i =>
      have hi : i < l.length := by simpa using h
      have h1 : (a :: l).get ⟨i + 1, h⟩ :: (a :: l).eraseIdx (i + 1)
          = l.get ⟨i, hi⟩ :: a :: l.eraseIdx i := by simp [List.eraseIdx]
      rw [h1]
      exact (List.Perm.swap a _ _).trans ((ih i hi).cons a)

theorem mmrLoop_length :
    ∀ (fuel : Nat) (sel rem : List RetrievalResult) (topK : Nat) (lam : ℚ),
      rem.length ≤ fuel → sel.length ≤ topK →
      (mmrLoop fuel sel rem topK lam).length = min topK (sel.length + rem.length) := by
  intro fuel
  induction fuel with
  | zero =>
    intro sel rem topK lam hf hs
    have : rem.length = 0 := by omega
    rw [mmrLoop]
    omega
  | succ fuel ih =>
    intro sel rem topK lam hf hs
    rw [mmrLoop]
    split
    · next hcond =>
      obtain ⟨hlt, hne⟩ := hcond
      have hbi := mmrBestIndex_lt sel rem lam hne
      simp only [List.get?_eq_get hbi]
      have hrem : 0 < rem.length := List.length_pos.mpr hne
      have herase : (rem.eraseIdx (mmrBestIndex sel rem lam)).length =
          rem.length - 1 := by
        rw [List.length_eraseIdx]
        simp [hbi]
      rw [ih (sel ++ [rem.get ⟨mmrBestIndex sel rem lam, hbi⟩])
        (rem.eraseIdx (mmrBestIndex sel rem lam)) topK lam
        (by omega) (by simp; omega)]
      simp only [List.length_append, List.length_singleton]
      omega
    · next hcond =>
      rw [Classical.not_and_iff_or_not_not] at hcond
      rcases hcond with hcond | hcond
      · have : sel.length = topK := by omega
        omega
      · have : rem = [] := not_not.mp hcond
        subst this
        simp
        omega

theorem mmrLoop_subperm :
    ∀ (fuel : Nat) (sel rem : List RetrievalResult) (topK : Nat) (lam : ℚ),
      List.Subperm (mmrLoop fuel sel rem topK lam) (sel ++ rem) := by
  intro fuel
  induction fuel with
  | zero =>
    intro sel rem topK lam
    rw [mmrLoop]
    exact (List.sublist_append_left sel rem).subperm
  | succ fuel ih =>
    intro sel rem topK lam
    rw [mmrLoop]
    split
    · next hcond =>
      obtain ⟨_, hne⟩ := hcond
      have hbi := mmrBestIndex_lt sel rem lam hne
      simp only [List.get?_eq_get hbi]
      refine (ih _ _ topK lam).trans (List.Perm.subperm ?_)
      have h1 : (sel ++ [rem.get ⟨mmrBestIndex sel rem lam, hbi⟩]) ++
            rem.eraseIdx (mmrBestIndex sel rem lam)
          = sel ++ (rem.get ⟨mmrBestIndex sel rem lam, hbi⟩ ::
              rem.eraseIdx (mmrBestIndex sel rem lam)) := by
        simp [List.append_assoc]
      rw [h1]
      exact List.Perm.append_left sel (cons_eraseIdx_perm rem _ hbi)
    · exact (List.sublist_append_left sel rem).subperm

theorem subperm_map_nodup {α β : Type} (f : α → β) {l₁ l₂ : List α}
    (h : List.Subperm l₁ l₂) (hnd : (l₂.map f).Nodup) : (l₁.map f).Nodup := by
  obtain ⟨l, hperm, hsub⟩ := h
  have hl : (l.map f).Nodup := List.Nodup.sublist (hsub.map f) hnd
  exact ((hperm.map f).nodup_iff).mp hl

/-- Counterexample to claim C2 as stated: at `k = 0` the selector still
returns the seeded first result (one passage, not `min(0, |C|) = 0`), and a
candidate list whose two entries share a `passage_id` is returned unchanged
when `|C| <= k`, so the output can repeat a `passage_id`. -/
theorem C2_counterexample :
    (applyMMR [rKeyA] 0 (1/2)).length = 1 ∧
    min 0 ([rKeyA] : List RetrievalResult).length = 0 ∧
    applyMMR [rKeyA, rKeyA2] 2 (1/2) = [rKeyA, rKeyA2] ∧
    ¬ ((applyMMR [rKeyA, rKeyA2] 2 (1/2)).map
        (fun r => r.metadata.chunkId)).Nodup := by
  refine ⟨rfl, rfl, rfl, by decide⟩

/-- Claim C2 (amended): for `k ≥ 1` and a candidate list with pairwise
distinct `passage_id`s, `applyMMR` returns exactly `min(k, |C|)` passages,
each `passage_id` occurring at most once, and returns `C` itself whenever
`|C| ≤ k`.  (As stated, the claim fails at `k = 0`, where the seeded first
result is always returned, and on inputs that already repeat an id, which
the no-op branch passes through — see the counterexample.) -/
theorem C2_applyMMR (C : List RetrievalResult) (k : Nat) (lam : ℚ)
    (hk : 1 ≤ k)
    (hids : (C.map (fun r => r.metadata.chunkId)).Nodup) :
    (applyMMR C k lam).length = min k C.length ∧
    ((applyMMR C k lam).map (fun r => r.metadata.chunkId)).Nodup ∧
    (C.length ≤ k → applyMMR C k lam = C) := by
  by_cases hle : C.length ≤ k
  · have happ : applyMMR C k lam = C := by
      rw [applyMMR.eq_def, if_pos hle]
    rw [happ]
    exact ⟨by omega, hids, fun _ => rfl⟩
  · cases C with
    | nil => simp at hle
    | cons first rest =>
      have happ : applyMMR (first :: rest) k lam =
          mmrLoop rest.length [first] rest k lam := by
        rw [applyMMR.eq_def, if_neg hle]
      rw [happ]
      refine ⟨?_, ?_, fun hc => absurd hc hle⟩
      · rw [mmrLoop_length rest.length [first] rest k lam le_rfl
          (by simp; omega)]
        have h1 : ([first] : List RetrievalResult).length = 1 := rfl
        have h2 : (first :: rest).length = rest.length + 1 := rfl
        rw [h1, h2]
        omega
      · exact subperm_map_nodup _ (mmrLoop_subperm rest.length [first] rest k lam)
          hids

/-- Witness for C2 at a concrete two-element candidate list and `k = 1`. -/
theorem C2_witness :
    1 ≤ 1 ∧
    (([rKeyA, rKeyB].map (fun r => r.metadata.chunkId)).Nodup) ∧
    (applyMMR [rKeyA, rKeyB] 1 (1/2)).length =
      min 1 ([rKeyA, rKeyB] : List RetrievalResult).length :=
  ⟨le_rfl, by decide,
    (C2_applyMMR [rKeyA, rKeyB] 1 (1/2) (by decide) (by decide)).1⟩

theorem mapSet_notMem {β : Type} :
    ∀ (m : List (Str × β)) (k : Str) (v : β), k ∉ m.map Prod.fst →
      mapSet m k v = m ++ [(k, v)] := by
  intro m
  induction m with
  | nil => intro k v _; rfl
  | cons p rest ih =>
    intro k v h
    obtain ⟨k', v'⟩ := p
    simp only [List.map_cons, List.mem_cons] at h
    push_neg at h
    rw [mapSet, if_neg (by simpa using h.1.symm)]
    rw [ih k v h.2]
    simp

theorem foldl_mapSet_append (f : RetrievalResult → RetrievalResult) :
    ∀ (v : List RetrievalResult) (m : List (Str × RetrievalResult)),
      (v.map getResultKey).Nodup →
      (∀ key ∈ v.map getResultKey, key ∉ m.map Prod.fst) →
      v.foldl (fun m r => mapSet m (getResultKey r) (f r)) m =
        m ++ v.map (fun r => (getResultKey r, f r)) := by
  intro v
  induction v with
  | nil => intro m _ _; simp
  | cons a v ih =>
    intro m hnd hdisj
    rw [List.map_cons, List.nodup_cons] at hnd
    obtain ⟨hna, hnd2⟩ := hnd
    simp only [List.foldl_cons]
    rw [mapSet_notMem _ _ _ (hdisj _ (by simp))]
    rw [ih (m ++ [(getResultKey a, f a)]) hnd2 ?_]
    · simp
    · intro key hkey
      simp only [List.map_append, List.mem_append]
      push_neg
      refine ⟨hdisj key (by simp [hkey]), ?_⟩
      have hne : key ≠ getResultKey a := by
        intro hk
        exact hna (hk ▸ hkey)
      simpa using hne

/-- `fuseVectorPhase` on a key-nodup input builds the association list in
input order. -/
theorem fuseVectorPhase_eq (v : List RetrievalResult) (alpha : ℚ)
    (h : (v.map getResultKey).Nodup) :
    fuseVectorPhase v alpha =
      v.map (fun r => (getResultKey r,
        { r with score := r.score * alpha, source := RSource.hybrid })) := by
  rw [fuseVectorPhase]
  rw [foldl_mapSet_append _ v [] h (by simp)]
  simp

theorem sortByScoreDesc_of_sorted :
    ∀ (l : List RetrievalResult),
      l.Pairwise (fun a b => b.score ≤ a.score) → sortByScoreDesc l = l := by
  intro l
  induction l with
  | nil => intro _; rfl
  | cons a l ih =>
    intro h
    have htail := List.Pairwise.of_cons h
    have hsort : sortByScoreDesc (a :: l) =
        insertByScoreDesc a (sortByScoreDesc l) := rfl
    rw [hsort, ih htail]
    cases l with
    | nil => rfl
    | cons x xs =>
      rw [insertByScoreDesc, if_pos (List.rel_of_pairwise_cons h (by simp))]

/-- Counterexample to claim C4 as stated: `fuse(A, [], 1.0)` rewrites each
candidate's channel label to `hybrid` (so the output is never literally `A`
when a source differs), re-sorts an unsorted `A` (order not preserved), and
collapses candidates sharing a merge key (length not preserved). -/
theorem C4_counterexample :
    fuseResults [rKeyA] [] 1 ≠ [rKeyA] ∧
    (fuseResults [rKeyB, rKeyA] [] 1).map (fun r => r.content) ≠
      [rKeyB, rKeyA].map (fun r => r.content) ∧
    (fuseResults [rKeyA, rKeyA2] [] 1).length ≠
      ([rKeyA, rKeyA2] : List RetrievalResult).length := by
  refine ⟨?_, ?_, ?_⟩
  · intro heq
    have h2 := congrArg (List.map (fun r => r.source)) heq
    have h3 : (fuseResults [rKeyA] [] 1).map (fun r => r.source) =
        [RSource.hybrid] := rfl
    rw [h3] at h2
    exact absurd h2 (by decide)
  · have hv : fuseResults [rKeyB, rKeyA] [] 1 =
        sortByScoreDesc
          [(rKeyB.content, ⟨rKeyB.content, rKeyB.metadata,
              rKeyB.score * 1, RSource.hybrid⟩),
           (rKeyA.content, ⟨rKeyA.content, rKeyA.metadata,
              rKeyA.score * 1, RSource.hybrid⟩)].unzip.2 := by
      rfl
    intro heq
    have hs : sortByScoreDesc
        [⟨rKeyB.content, rKeyB.metadata, rKeyB.score * 1, RSource.hybrid⟩,
         ⟨rKeyA.content, rKeyA.metadata, rKeyA.score * 1, RSource.hybrid⟩] =
        [⟨rKeyA.content, rKeyA.metadata, rKeyA.score * 1, RSource.hybrid⟩,
         ⟨rKeyB.content, rKeyB.metadata, rKeyB.score * 1, RSource.hybrid⟩] := by
      show insertByScoreDesc _ (insertByScoreDesc _ []) = _
      rw [insertByScoreDesc, insertByScoreDesc,
        if_neg (by simp [rKeyA, rKeyB]; norm_num)]
      rfl
    have hfuse : fuseResults [rKeyB, rKeyA] [] 1 =
        [⟨rKeyA.content, rKeyA.metadata, rKeyA.score * 1, RSource.hybrid⟩,
         ⟨rKeyB.content, rKeyB.metadata, rKeyB.score * 1, RSource.hybrid⟩] := by
      rw [hv]
      exact hs
    rw [hfuse] at heq
    simp [rKeyA, rKeyB] at heq
  · have h1 : (fuseResults [rKeyA, rKeyA2] [] 1).length = 1 := rfl
    simp [h1]

/-- Claim C4 (amended): for a candidate set `A` whose merge keys are
pairwise distinct and whose scores are already non-increasing,
`fuse(A, [], alpha=1.0)` is score- and order-identical to `A`, with each
candidate's channel label set to `hybrid`.  (As stated the claim fails: the
code always rewrites `source` to `'hybrid'`, re-sorts, and merges duplicate
keys — see the counterexample.  The sort itself is stable, preserving
first-seen order among equal scores, which is what the order-identity here
relies on.) -/
theorem C4_fuse_idempotent (A : List RetrievalResult)
    (hkeys : (A.map getResultKey).Nodup)
    (hsort : A.Pairwise (fun a b => b.score ≤ a.score)) :
    fuseResults A [] 1 =
      A.map (fun r => { r with source := RSource.hybrid }) := by
  rw [fuseResults]
  have hkw : fuseKeywordPhase (fuseVectorPhase A 1) [] 1 =
      fuseVectorPhase A 1 := rfl
  rw [hkw, fuseVectorPhase_eq A 1 hkeys]
  have hmap : (A.map (fun r => (getResultKey r,
      ({ r with score := r.score * 1, source := RSource.hybrid } :
        RetrievalResult)))).map Prod.snd =
      A.map (fun r => { r with source := RSource.hybrid }) := by
    rw [List.map_map]
    refine List.map_congr_left ?_
    intro r _
    simp [mul_one]
  rw [hmap]
  refine sortByScoreDesc_of_sorted _ ?_
  rw [List.pairwise_map]
  exact hsort

/-- Witness for C4 at a concrete sorted, key-distinct candidate pair. -/
theorem C4_witness :
    (([rKeyA, rKeyB].map getResultKey).Nodup) ∧
    ([rKeyA, rKeyB].Pairwise (fun a b => b.score ≤ a.score)) ∧
    fuseResults [rKeyA, rKeyB] [] 1 =
      [rKeyA, rKeyB].map (fun r => { r with source := RSource.hybrid }) := by
  have hp : [rKeyA, rKeyB].Pairwise (fun a b => b.score ≤ a.score) := by
    simp [List.pairwise_cons, rKeyA, rKeyB]
    norm_num
  exact ⟨by decide, hp, C4_fuse_idempotent [rKeyA, rKeyB] (by decide) hp⟩

theorem mapFind_nil {β : Type} (k : Str) : mapFind ([] : List (Str × β)) k = none := rfl

theorem mapFind_cons {β : Type} (k0 : Str) (v0 : β) (rest : List (Str × β))
    (k' : Str) :
    mapFind ((k0, v0) :: rest) k' =
      if k0 = k' then some v0 else mapFind rest k' := by
  by_cases h : k0 = k' <;> simp [mapFind, List.find?, h]

theorem mapFind_mapSet {β : Type} :
    ∀ (m : List (Str × β)) (k k' : Str) (v : β),
      mapFind (mapSet m k v) k' = if k' = k then some v else mapFind m k' := by
  intro m
  induction m with
  | nil =>
    intro k k' v
    by_cases h : k' = k
    · subst h; simp [mapSet, mapFind_cons]
    · rw [if_neg h]
      show mapFind [(k, v)] k' = none
      rw [mapFind_cons, if_neg (fun hh => h hh.symm)]
      rfl
  | cons p rest ih =>
    intro k k' v
    obtain ⟨k0, v0⟩ := p
    by_cases h0 : k0 = k
    · subst h0
      rw [mapSet, if_pos rfl, mapFind_cons, mapFind_cons]
      by_cases h : k0 = k'
      · rw [if_pos h, if_pos h.symm]
      · rw [if_neg h, if_neg (fun hh => h hh.symm), if_neg h]
    · rw [mapSet, if_neg h0, mapFind_cons, ih]
      by_cases h1 : k0 = k'
      · subst h1
        rw [if_pos rfl, if_neg h0, mapFind_cons, if_pos rfl]
      · rw [if_neg h1]
        by_cases h2 : k' = k
        · rw [if_pos h2, if_pos h2]
        · rw [if_neg h2, if_neg h2, mapFind_cons, if_neg h1]

theorem mapSet_keys {β : Type} :
    ∀ (m : List (Str × β)) (k : Str) (v : β),
      (mapSet m k v).map Prod.fst =
        if k ∈ m.map Prod.fst then m.map Prod.fst
        else m.map Prod.fst ++ [k] := by
  intro m
  induction m with
  | nil => intro k v; simp [mapSet]
  | cons p rest ih =>
    intro k v
    obtain ⟨k0, v0⟩ := p
    by_cases h0 : k0 = k
    · subst h0
      rw [mapSet, if_pos rfl,
        if_pos (by rw [List.map_cons]; exact List.mem_cons_self _ _)]
      simp
    · rw [mapSet, if_neg h0]
      simp only [List.map_cons, List.mem_cons]
      rw [ih]
      by_cases h : k ∈ rest.map Prod.fst
      · rw [if_pos h, if_pos (Or.inr h)]
      · rw [if_neg h, if_neg (by
          intro hc
          rcases hc with hc | hc
          · exact h0 hc.symm
          · exact h hc)]
        simp

theorem mapSet_keys_nodup {β : Type} (m : List (Str × β)) (k : Str) (v : β)
    (h : (m.map Prod.fst).Nodup) : ((mapSet m k v).map Prod.fst).Nodup := by
  rw [mapSet_keys]
  by_cases hm : k ∈ m.map Prod.fst
  · rw [if_pos hm]; exact h
  · rw [if_neg hm, List.nodup_append]
    refine ⟨h, List.nodup_singleton _, ?_⟩
    intro a ha hb
    rw [List.mem_singleton] at hb
    subst hb
    exact hm ha

theorem mem_mapSet_keys {β : Type} (m : List (Str × β)) (k k' : Str) (v : β) :
    k' ∈ (mapSet m k v).map Prod.fst ↔ k' = k ∨ k' ∈ m.map Prod.fst := by
  rw [mapSet_keys]
  by_cases hm : k ∈ m.map Prod.fst
  · rw [if_pos hm]
    constructor
    · exact Or.inr
    · rintro (rfl | h)
      · exact hm
      · exact h
  · rw [if_neg hm, List.mem_append, List.mem_singleton]
    exact or_comm

theorem mapFind_some_mem_pair {β : Type} (m : List (Str × β)) (k : Str)
    (v : β) (h : mapFind m k = some v) : (k, v) ∈ m := by
  rw [mapFind] at h
  obtain ⟨p, hp, hps⟩ := Option.map_eq_some'.mp h
  have hmem := List.mem_of_find?_eq_some hp
  have hkey := List.find?_some hp
  simp only [decide_eq_true_eq] at hkey
  obtain ⟨p1, p2⟩ := p
  simp only at hkey hps
  subst hkey; subst hps
  exact hmem

theorem foldl_mapSet_find_of_filter_nil (f : RetrievalResult → RetrievalResult) :
    ∀ (v : List RetrievalResult) (m : List (Str × RetrievalResult)) (key : Str),
      v.filter (fun r => getResultKey r = key) = [] →
      mapFind (v.foldl (fun m r => mapSet m (getResultKey r) (f r)) m) key =
        mapFind m key := by
  intro v
  induction v with
  | nil => intro m key _; rfl
  | cons a v ih =>
    intro m key h
    by_cases hc : getResultKey a = key
    · rw [List.filter_cons, if_pos (by simpa using hc)] at h
      exact absurd h (List.cons_ne_nil _ _)
    · rw [List.filter_cons, if_neg (by simpa using hc)] at h
      simp only [List.foldl_cons]
      rw [ih _ _ h, mapFind_mapSet, if_neg (fun hh => hc hh.symm)]

theorem foldl_mapSet_find_of_filter_singleton
    (f : RetrievalResult → RetrievalResult) :
    ∀ (v : List RetrievalResult) (m : List (Str × RetrievalResult))
      (key : Str) (rv : RetrievalResult),
      v.filter (fun r => getResultKey r = key) = [rv] →
      mapFind (v.foldl (fun m r => mapSet m (getResultKey r) (f r)) m) key =
        some (f rv) := by
  intro v
  induction v with
  | nil => intro m key rv h; simp at h
  | cons a v ih =>
    intro m key rv h
    by_cases hc : getResultKey a = key
    · rw [List.filter_cons, if_pos (by simpa using hc)] at h
      rw [List.cons_eq_cons] at h
      obtain ⟨rfl, hnil⟩ := h
      simp only [List.foldl_cons]
      rw [foldl_mapSet_find_of_filter_nil f v _ key hnil, mapFind_mapSet,
        if_pos hc.symm]
    · rw [List.filter_cons, if_neg (by simpa using hc)] at h
      simp only [List.foldl_cons]
      exact ih _ _ _ h

theorem fuseKeywordPhase_cons (m : List (Str × RetrievalResult))
    (a : RetrievalResult) (kw : List RetrievalResult) (alpha : ℚ) :
    fuseKeywordPhase m (a :: kw) alpha =
      fuseKeywordPhase (fuseKeywordPhase m [a] alpha) kw alpha := rfl

theorem fuseKeywordPhase_single (m : List (Str × RetrievalResult))
    (a : RetrievalResult) (alpha : ℚ) :
    fuseKeywordPhase m [a] alpha =
      match mapFind m (getResultKey a) with
      | some existing =>
          mapSet m (getResultKey a)
            { existing with score := existing.score + a.score * (1 - alpha) }
      | none =>
          mapSet m (getResultKey a)
            { a with score := a.score * (1 - alpha),
                     source := RSource.hybrid } := rfl

theorem fuseKeywordPhase_single_find_ne (m : List (Str × RetrievalResult))
    (a : RetrievalResult) (alpha : ℚ) (key : Str)
    (h : getResultKey a ≠ key) :
    mapFind (fuseKeywordPhase m [a] alpha) key = mapFind m key := by
  rw [fuseKeywordPhase_single]
  cases hm : mapFind m (getResultKey a) with
  | some ex => rw [mapFind_mapSet, if_neg (fun hh => h hh.symm)]
  | none => rw [mapFind_mapSet, if_neg (fun hh => h hh.symm)]

theorem fuseKeywordPhase_single_find_self (m : List (Str × RetrievalResult))
    (a : RetrievalResult) (alpha : ℚ) :
    mapFind (fuseKeywordPhase m [a] alpha) (getResultKey a) =
      match mapFind m (getResultKey a) with
      | some ex => some { ex with score := ex.score + a.score * (1 - alpha) }
      | none => some { a with score := a.score * (1 - alpha),
                              source := RSource.hybrid } := by
  rw [fuseKeywordPhase_single]
  cases hm : mapFind m (getResultKey a) with
  | some ex => rw [mapFind_mapSet, if_pos rfl]
  | none => rw [mapFind_mapSet, if_pos rfl]

theorem fuseKeywordPhase_find_of_filter_nil (alpha : ℚ) :
    ∀ (kw : List RetrievalResult) (m : List (Str × RetrievalResult))
      (key : Str),
      kw.filter (fun r => getResultKey r = key) = [] →
      mapFind (fuseKeywordPhase m kw alpha) key = mapFind m key := by
  intro kw
  induction kw with
  | nil => intro m key _; rfl
  | cons a kw ih =>
    intro m key h
    by_cases hc : getResultKey a = key
    · rw [List.filter_cons, if_pos (by simpa using hc)] at h
      exact absurd h (List.cons_ne_nil _ _)
    · rw [List.filter_cons, if_neg (by simpa using hc)] at h
      rw [fuseKeywordPhase_cons, ih _ _ h,
        fuseKeywordPhase_single_find_ne _ _ _ _ hc]

theorem fuseKeywordPhase_find_of_filter_singleton (alpha : ℚ) :
    ∀ (kw : List RetrievalResult) (m : List (Str × RetrievalResult))
      (key : Str) (rk : RetrievalResult),
      kw.filter (fun r => getResultKey r = key) = [rk] →
      mapFind (fuseKeywordPhase m kw alpha) key =
        match mapFind m key with
        | some ex => some { ex with score := ex.score + rk.score * (1 - alpha) }
        | none => some { rk with score := rk.score * (1 - alpha),
                                 source := RSource.hybrid } := by
  intro kw
  induction kw with
  | nil => intro m key rk h; simp at h
  | cons a kw ih =>
    intro m key rk h
    by_cases hc : getResultKey a = key
    · rw [List.filter_cons, if_pos (by simpa using hc)] at h
      rw [List.cons_eq_cons] at h
      obtain ⟨rfl, hnil⟩ := h
      rw [fuseKeywordPhase_cons,
        fuseKeywordPhase_find_of_filter_nil alpha kw _ key hnil]
      rw [← hc]
      exact fuseKeywordPhase_single_find_self m a alpha
    · rw [List.filter_cons, if_neg (by simpa using hc)] at h
      rw [fuseKeywordPhase_cons, ih _ _ _ h,
        fuseKeywordPhase_single_find_ne _ _ _ _ hc]

theorem foldl_mapSet_keys_mem (f : RetrievalResult → RetrievalResult) :
    ∀ (v : List RetrievalResult) (m : List (Str × RetrievalResult)) (key : Str),
      (key ∈ (v.foldl (fun m r => mapSet m (getResultKey r) (f r)) m).map
          Prod.fst ↔
        key ∈ v.map getResultKey ∨ key ∈ m.map Prod.fst) := by
  intro v
  induction v with
  | nil =>
    intro m key
    simp only [List.foldl_nil, List.map_nil, List.not_mem_nil, false_or]
  | cons a v ih =>
    intro m key
    simp only [List.foldl_cons]
    rw [ih, mem_mapSet_keys, List.map_cons, List.mem_cons]
    tauto

theorem foldl_mapSet_keys_nodup (f : RetrievalResult → RetrievalResult) :
    ∀ (v : List RetrievalResult) (m : List (Str × RetrievalResult)),
      ((m.map Prod.fst).Nodup) →
      (((v.foldl (fun m r => mapSet m (getResultKey r) (f r)) m).map
          Prod.fst).Nodup) := by
  intro v
  induction v with
  | nil => intro m h; exact h
  | cons a v ih =>
    intro m h
    simp only [List.foldl_cons]
    exact ih _ (mapSet_keys_nodup _ _ _ h)

theorem fuseKeywordPhase_keys_mem (alpha : ℚ) :
    ∀ (kw : List RetrievalResult) (m : List (Str × RetrievalResult)) (key : Str),
      (key ∈ (fuseKeywordPhase m kw alpha).map Prod.fst ↔
        key ∈ kw.map getResultKey ∨ key ∈ m.map Prod.fst) := by
  intro kw
  induction kw with
  | nil =>
    intro m key
    rw [show fuseKeywordPhase m [] alpha = m from rfl]
    simp only [List.map_nil, List.not_mem_nil, false_or]
  | cons a kw ih =>
    intro m key
    rw [fuseKeywordPhase_cons, ih, fuseKeywordPhase_single]
    have hsingle : ∀ (mm : List (Str × RetrievalResult)),
        (key ∈ (match mapFind m (getResultKey a) with
          | some ex => mapSet m (getResultKey a)
              { ex with score := ex.score + a.score * (1 - alpha) }
          | none => mapSet m (getResultKey a)
              { a with score := a.score * (1 - alpha),
                       source := RSource.hybrid }).map Prod.fst ↔
          key = getResultKey a ∨ key ∈ m.map Prod.fst) := by
      intro _
      cases hm : mapFind m (getResultKey a) with
      | some ex => rw [mem_mapSet_keys]
      | none => rw [mem_mapSet_keys]
    rw [hsingle m, List.map_cons, List.mem_cons]
    tauto

theorem fuseKeywordPhase_keys_nodup (alpha : ℚ) :
    ∀ (kw : List RetrievalResult) (m : List (Str × RetrievalResult)),
      ((m.map Prod.fst).Nodup) →
      (((fuseKeywordPhase m kw alpha).map Prod.fst).Nodup) := by
  intro kw
  induction kw with
  | nil => intro m h; exact h
  | cons a kw ih =>
    intro m h
    rw [fuseKeywordPhase_cons]
    refine ih _ ?_
    rw [fuseKeywordPhase_single]
    cases hm : mapFind m (getResultKey a) with
    | some ex => exact mapSet_keys_nodup _ _ _ h
    | none => exact mapSet_keys_nodup _ _ _ h

theorem keyConsistent_mapSet {m : List (Str × RetrievalResult)} {k : Str}
    {v : RetrievalResult} (hm : ∀ p ∈ m, getResultKey p.2 = p.1)
    (hv : getResultKey v = k) :
    ∀ p ∈ mapSet m k v, getResultKey p.2 = p.1 := by
  induction m with
  | nil =>
    intro p hp
    rw [mapSet] at hp
    rw [List.mem_singleton] at hp
    subst hp
    exact hv
  | cons q rest ih =>
    intro p hp
    obtain ⟨k0, v0⟩ := q
    by_cases h0 : k0 = k
    · subst h0
      rw [mapSet, if_pos rfl] at hp
      rcases List.mem_cons.mp hp with hp | hp
      · subst hp; exact hv
      · exact hm _ (List.mem_cons_of_mem _ hp)
    · rw [mapSet, if_neg h0] at hp
      rcases List.mem_cons.mp hp with hp | hp
      · subst hp; exact hm _ (List.mem_cons_self _ _)
      · exact ih (fun q hq => hm q (List.mem_cons_of_mem _ hq)) p hp

theorem foldl_mapSet_keyConsistent (f : RetrievalResult → RetrievalResult)
    (hf : ∀ r, getResultKey (f r) = getResultKey r) :
    ∀ (v : List RetrievalResult) (m : List (Str × RetrievalResult)),
      (∀ p ∈ m, getResultKey p.2 = p.1) →
      ∀ p ∈ v.foldl (fun m r => mapSet m (getResultKey r) (f r)) m,
        getResultKey p.2 = p.1 := by
  intro v
  induction v with
  | nil => intro m hm; exact hm
  | cons a v ih =>
    intro m hm
    simp only [List.foldl_cons]
    exact ih _ (keyConsistent_mapSet hm (hf a))

theorem fuseKeywordPhase_keyConsistent (alpha : ℚ) :
    ∀ (kw : List RetrievalResult) (m : List (Str × RetrievalResult)),
      (∀ p ∈ m, getResultKey p.2 = p.1) →
      ∀ p ∈ fuseKeywordPhase m kw alpha, getResultKey p.2 = p.1 := by
  intro kw
  induction kw with
  | nil => intro m hm; exact hm
  | cons a kw ih =>
    intro m hm
    rw [fuseKeywordPhase_cons]
    refine ih _ ?_
    rw [fuseKeywordPhase_single]
    cases hfind : mapFind m (getResultKey a) with
    | some ex =>
      have hex : getResultKey ex = getResultKey a :=
        hm _ (mapFind_some_mem_pair _ _ _ hfind)
      exact keyConsistent_mapSet hm hex
    | none => exact keyConsistent_mapSet hm rfl

theorem insertByScoreDesc_perm (r : RetrievalResult) :
    ∀ (l : List RetrievalResult), (insertByScoreDesc r l).Perm (r :: l) := by
  intro l
  induction l with
  | nil => exact List.Perm.refl _
  | cons x xs ih =>
    rw [insertByScoreDesc]
    by_cases h : x.score ≤ r.score
    · rw [if_pos h]
    · rw [if_neg h]
      exact (ih.cons x).trans (List.Perm.swap r x xs)

theorem sortByScoreDesc_perm :
    ∀ (l : List RetrievalResult), (sortByScoreDesc l).Perm l := by
  intro l
  induction l with
  | nil => exact List.Perm.refl _
  | cons a l ih =>
    have : sortByScoreDesc (a :: l) = insertByScoreDesc a (sortByScoreDesc l) :=
      rfl
    rw [this]
    exact (insertByScoreDesc_perm a (sortByScoreDesc l)).trans (ih.cons a)

theorem insertByScoreDesc_pairwise (r : RetrievalResult) :
    ∀ (l : List RetrievalResult),
      l.Pairwise (fun a b => b.score ≤ a.score) →
      (insertByScoreDesc r l).Pairwise (fun a b => b.score ≤ a.score) := by
  intro l
  induction l with
  | nil => intro _; exact List.pairwise_singleton _ _
  | cons x xs ih =>
    intro h
    rw [insertByScoreDesc]
    by_cases hle : x.score ≤ r.score
    · rw [if_pos hle]
      refine List.Pairwise.cons ?_ h
      intro y hy
      rcases List.mem_cons.mp hy with rfl | hy
      · exact hle
      · exact le_trans (List.rel_of_pairwise_cons h hy) hle
    · rw [if_neg hle]
      have hxs := List.Pairwise.of_cons h
      refine List.Pairwise.cons ?_ (ih hxs)
      intro y hy
      have hy2 := (insertByScoreDesc_perm r xs).mem_iff.mp hy
      rcases List.mem_cons.mp hy2 with rfl | hy2
      · exact le_of_lt (lt_of_not_le hle)
      · exact List.rel_of_pairwise_cons h hy2

theorem sortByScoreDesc_pairwise :
    ∀ (l : List RetrievalResult),
      (sortByScoreDesc l).Pairwise (fun a b => b.score ≤ a.score) := by
  intro l
  induction l with
  | nil => exact List.Pairwise.nil
  | cons a l ih => exact insertByScoreDesc_pairwise a (sortByScoreDesc l) ih

/-- Claim C1: for any vector/keyword result lists and any `alpha ∈ [0,1]`,
`fuseResults` yields exactly one candidate per merge key (the `chunkId`
when present, else the 100-character content prefix): output keys are
nodup, a key appears in the output exactly when it appears in some input
channel, the output is sorted by non-increasing fused score, a passage
found once in each channel gets `alpha * v + (1-alpha) * k`, and a passage
found in only one channel gets only that channel's weighted term. -/
theorem C1_fuseResults (v kw : List RetrievalResult) (alpha : ℚ)
    (halpha0 : 0 ≤ alpha) (halpha1 : alpha ≤ 1) :
    ((fuseResults v kw alpha).map getResultKey).Nodup ∧
    (∀ key, key ∈ (fuseResults v kw alpha).map getResultKey ↔
      key ∈ v.map getResultKey ∨ key ∈ kw.map getResultKey) ∧
    (fuseResults v kw alpha).Pairwise (fun a b => b.score ≤ a.score) ∧
    (∀ rv rk,
      v.filter (fun r => getResultKey r = getResultKey rv) = [rv] →
      kw.filter (fun r => getResultKey r = getResultKey rv) = [rk] →
      ∃ r ∈ fuseResults v kw alpha, getResultKey r = getResultKey rv ∧
        r.content = rv.content ∧ r.metadata = rv.metadata ∧
        r.score = alpha * rv.score + (1 - alpha) * rk.score) ∧
    (∀ rv,
      v.filter (fun r => getResultKey r = getResultKey rv) = [rv] →
      kw.filter (fun r => getResultKey r = getResultKey rv) = [] →
      ∃ r ∈ fuseResults v kw alpha, getResultKey r = getResultKey rv ∧
        r.content = rv.content ∧ r.metadata = rv.metadata ∧
        r.score = alpha * rv.score) ∧
    (∀ rk,
      v.filter (fun r => getResultKey r = getResultKey rk) = [] →
      kw.filter (fun r => getResultKey r = getResultKey rk) = [rk] →
      ∃ r ∈ fuseResults v kw alpha, getResultKey r = getResultKey rk ∧
        r.content = rk.content ∧ r.metadata = rk.metadata ∧
        r.score = (1 - alpha) * rk.score) := by
  have hm1eq : fuseVectorPhase v alpha =
      v.foldl (fun m r => mapSet m (getResultKey r)
        { r with score := r.score * alpha, source := RSource.hybrid }) [] := rfl
  have hfuseq : fuseResults v kw alpha =
      sortByScoreDesc ((fuseKeywordPhase (fuseVectorPhase v alpha) kw
        alpha).map Prod.snd) := rfl
  have hKC1 : ∀ p ∈ fuseVectorPhase v alpha, getResultKey p.2 = p.1 := by
    rw [hm1eq]
    exact foldl_mapSet_keyConsistent
      (fun r => { r with score := r.score * alpha, source := RSource.hybrid })
      (fun r => rfl) v [] (fun p hp => absurd hp (List.not_mem_nil p))
  have hKC2 : ∀ p ∈ fuseKeywordPhase (fuseVectorPhase v alpha) kw alpha,
      getResultKey p.2 = p.1 :=
    fuseKeywordPhase_keyConsistent alpha kw _ hKC1
  have hvals_keys :
      (((fuseKeywordPhase (fuseVectorPhase v alpha) kw alpha).map
        Prod.snd).map getResultKey) =
      (fuseKeywordPhase (fuseVectorPhase v alpha) kw alpha).map Prod.fst := by
    rw [List.map_map]
    exact List.map_congr_left (fun p hp => hKC2 p hp)
  have hnd1 : ((fuseVectorPhase v alpha).map Prod.fst).Nodup := by
    rw [hm1eq]
    exact foldl_mapSet_keys_nodup _ v []
      (by rw [List.map_nil]; exact List.nodup_nil)
  have hnd2 : ((fuseKeywordPhase (fuseVectorPhase v alpha) kw alpha).map
      Prod.fst).Nodup :=
    fuseKeywordPhase_keys_nodup alpha kw _ hnd1
  have hpermkeys : ((fuseResults v kw alpha).map getResultKey).Perm
      (((fuseKeywordPhase (fuseVectorPhase v alpha) kw alpha).map
        Prod.snd).map getResultKey) := by
    rw [hfuseq]
    exact (sortByScoreDesc_perm _).map getResultKey
  refine ⟨?_, ?_, ?_, ?_, ?_, ?_⟩
  · rw [hpermkeys.nodup_iff, hvals_keys]
    exact hnd2
  · intro key
    rw [hpermkeys.mem_iff, hvals_keys, fuseKeywordPhase_keys_mem, hm1eq,
      foldl_mapSet_keys_mem]
    rw [List.map_nil]
    constructor
    · rintro (h | h | h)
      · exact Or.inr h
      · exact Or.inl h
      · exact absurd h (List.not_mem_nil key)
    · rintro (h | h)
      · exact Or.inr (Or.inl h)
      · exact Or.inl h
  · rw [hfuseq]
    exact sortByScoreDesc_pairwise _
  · intro rv rk hv hk
    have hf1 : mapFind (fuseVectorPhase v alpha) (getResultKey rv) =
        some { rv with score := rv.score * alpha, source := RSource.hybrid } := by
      rw [hm1eq]
      exact foldl_mapSet_find_of_filter_singleton _ v [] _ rv hv
    have hf2 := fuseKeywordPhase_find_of_filter_singleton alpha kw
      (fuseVectorPhase v alpha) (getResultKey rv) rk hk
    rw [hf1] at hf2
    have hf3 : mapFind (fuseKeywordPhase (fuseVectorPhase v alpha) kw alpha)
        (getResultKey rv) =
        some ⟨rv.content, rv.metadata,
          rv.score * alpha + rk.score * (1 - alpha), RSource.hybrid⟩ := hf2
    have hmem := mapFind_some_mem_pair _ _ _ hf3
    have hmem2 : (⟨rv.content, rv.metadata,
        rv.score * alpha + rk.score * (1 - alpha), RSource.hybrid⟩ :
          RetrievalResult) ∈
        (fuseKeywordPhase (fuseVectorPhase v alpha) kw alpha).map Prod.snd :=
      List.mem_map_of_mem Prod.snd hmem
    refine ⟨⟨rv.content, rv.metadata,
      rv.score * alpha + rk.score * (1 - alpha), RSource.hybrid⟩,
      ?_, rfl, rfl, rfl, by ring⟩
    rw [hfuseq]
    exact (sortByScoreDesc_perm _).mem_iff.mpr hmem2
  · intro rv hv hk
    have hf1 : mapFind (fuseVectorPhase v alpha) (getResultKey rv) =
        some { rv with score := rv.score * alpha, source := RSource.hybrid } := by
      rw [hm1eq]
      exact foldl_mapSet_find_of_filter_singleton _ v [] _ rv hv
    have hf3 : mapFind (fuseKeywordPhase (fuseVectorPhase v alpha) kw alpha)
        (getResultKey rv) =
        some ⟨rv.content, rv.metadata, rv.score * alpha, RSource.hybrid⟩ := by
      rw [fuseKeywordPhase_find_of_filter_nil alpha kw _ _ hk]
      exact hf1
    have hmem := mapFind_some_mem_pair _ _ _ hf3
    have hmem2 : (⟨rv.content, rv.metadata, rv.score * alpha,
        RSource.hybrid⟩ : RetrievalResult) ∈
        (fuseKeywordPhase (fuseVectorPhase v alpha) kw alpha).map Prod.snd :=
      List.mem_map_of_mem Prod.snd hmem
    refine ⟨⟨rv.content, rv.metadata, rv.score * alpha, RSource.hybrid⟩,
      ?_, rfl, rfl, rfl, by ring⟩
    rw [hfuseq]
    exact (sortByScoreDesc_perm _).mem_iff.mpr hmem2
  · intro rk hv hk
    have hf1 : mapFind (fuseVectorPhase v alpha) (getResultKey rk) = none := by
      rw [hm1eq]
      rw [foldl_mapSet_find_of_filter_nil _ v [] _ hv]
      rfl
    have hf2 := fuseKeywordPhase_find_of_filter_singleton alpha kw
      (fuseVectorPhase v alpha) (getResultKey rk) rk hk
    rw [hf1] at hf2
    have hf3 : mapFind (fuseKeywordPhase (fuseVectorPhase v alpha) kw alpha)
        (getResultKey rk) =
        some ⟨rk.content, rk.metadata, rk.score * (1 - alpha),
          RSource.hybrid⟩ := hf2
    have hmem := mapFind_some_mem_pair _ _ _ hf3
    have hmem2 : (⟨rk.content, rk.metadata, rk.score * (1 - alpha),
        RSource.hybrid⟩ : RetrievalResult) ∈
        (fuseKeywordPhase (fuseVectorPhase v alpha) kw alpha).map Prod.snd :=
      List.mem_map_of_mem Prod.snd hmem
    refine ⟨⟨rk.content, rk.metadata, rk.score * (1 - alpha),
      RSource.hybrid⟩, ?_, rfl, rfl, rfl, by ring⟩
    rw [hfuseq]
    exact (sortByScoreDesc_perm _).mem_iff.mpr hmem2

/-- Witness for C1: one passage found by both channels at `alpha = 0.7`. -/
theorem C1_witness :
    (0 ≤ (7/10 : ℚ)) ∧ ((7/10 : ℚ) ≤ 1) ∧
    ([rKeyA].filter (fun r => getResultKey r = getResultKey rKeyA) = [rKeyA]) ∧
    ([rKw].filter (fun r => getResultKey r = getResultKey rKeyA) = [rKw]) ∧
    (∃ r ∈ fuseResults [rKeyA] [rKw] (7/10),
      getResultKey r = getResultKey rKeyA ∧
      r.content = rKeyA.content ∧ r.metadata = rKeyA.metadata ∧
      r.score = (7/10) * rKeyA.score + (1 - 7/10) * rKw.score) := by
  have hfv : [rKeyA].filter (fun r => getResultKey r = getResultKey rKeyA) =
      [rKeyA] := by
    rw [List.filter_cons, if_pos (by decide)]
    rfl
  have hfk : [rKw].filter (fun r => getResultKey r = getResultKey rKeyA) =
      [rKw] := by
    rw [List.filter_cons, if_pos (by decide)]
    rfl
  exact ⟨by norm_num, by norm_num, hfv, hfk,
    (C1_fuseResults [rKeyA] [rKw] (7/10) (by norm_num)
      (by norm_num)).2.2.2.1 rKeyA rKw hfv hfk⟩

theorem take_take_length {α : Type} (l : List α) (n : Nat) :
    l.take ((l.take n).length) = l.take n := by
  rw [List.length_take, List.take_eq_take]
  omega

theorem keywordScanScore_append (qt : List Str) (a b : List (Str × RMeta)) :
    keywordScanScore qt (a ++ b) =
      keywordScanScore qt a ++ keywordScanScore qt b := by
  rw [keywordScanScore, keywordScanScore, keywordScanScore,
    List.filterMap_append]

theorem kwLoop_pop_spec (pop : List (Str × RMeta)) (qt : List Str)
    (topK : Nat) :
    ∀ (fuel page : Nat) (s : KWState),
      fuel + page = maxKeywordPagesConfig →
      s.currentOffset = s.totalDocsProcessed →
      s.totalDocsProcessed = keywordBatchSizeConfig * page →
      s.totalDocsProcessed ≤ pop.length →
      s.scoredResults = keywordScanScore qt (pop.take s.totalDocsProcessed) →
      (((kwLoop (envOfPopulation pop) qt topK fuel page s).totalDocsProcessed ≤
          maxScanLimitConfig ∧
        (kwLoop (envOfPopulation pop) qt topK fuel page s).totalDocsProcessed ≤
          pop.length ∧
        (kwLoop (envOfPopulation pop) qt topK fuel page s).scoredResults =
          keywordScanScore qt (pop.take
            (kwLoop (envOfPopulation pop) qt topK fuel page
              s).totalDocsProcessed)) ∧
      (∀ p, page ≤ p → 2 ≤ p →
        topK * 3 ≤ (keywordScanScore qt
          (pop.take (keywordBatchSizeConfig * (p + 1)))).length →
        (kwLoop (envOfPopulation pop) qt topK fuel page s).totalDocsProcessed ≤
          keywordBatchSizeConfig * (p + 1))) := by
  intro fuel
  induction fuel with
  | zero =>
    intro page s hfp hoff htot hlen hsc
    rw [kwLoop]
    rw [maxKeywordPagesConfig] at hfp
    rw [keywordBatchSizeConfig] at htot
    refine ⟨⟨?_, hlen, hsc⟩, ?_⟩
    · rw [maxScanLimitConfig]; omega
    · intro p hp _ _
      rw [keywordBatchSizeConfig]
      omega
  | succ fuel ih =>
    intro page s hfp hoff htot hlen hsc
    rw [kwLoop]
    by_cases hstop : maxScanLimitConfig ≤ s.totalDocsProcessed
    · rw [if_pos hstop]
      refine ⟨⟨?_, hlen, hsc⟩, ?_⟩
      · rw [maxScanLimitConfig]
        rw [maxKeywordPagesConfig] at hfp
        rw [keywordBatchSizeConfig] at htot
        omega
      · intro p hp _ _
        rw [keywordBatchSizeConfig] at htot ⊢
        omega
    · rw [if_neg hstop]
      have hbatch : (envOfPopulation pop).getBatch keywordBatchSizeConfig
          s.currentOffset =
          Except.ok ((pop.drop s.totalDocsProcessed).take
            keywordBatchSizeConfig) := by
        rw [envOfPopulation, hoff]
      rw [hbatch]
      simp only []
      by_cases hb : (pop.drop s.totalDocsProcessed).take
          keywordBatchSizeConfig = []
      · rw [if_pos hb]
        refine ⟨⟨?_, hlen, hsc⟩, ?_⟩
        · rw [maxScanLimitConfig]
          rw [maxKeywordPagesConfig] at hfp
          rw [keywordBatchSizeConfig] at htot
          omega
        · intro p hp _ _
          rw [keywordBatchSizeConfig] at htot ⊢
          omega
      · rw [if_neg hb]
        set batch := (pop.drop s.totalDocsProcessed).take
          keywordBatchSizeConfig with hbatchdef
        have hbs_le : batch.length ≤ keywordBatchSizeConfig := by
          rw [hbatchdef]
          exact List.length_take_le _ _
        have hbs_pop : s.totalDocsProcessed + batch.length ≤ pop.length := by
          rw [hbatchdef, List.length_take, List.length_drop]
          omega
        have htake : (pop.drop s.totalDocsProcessed).take batch.length =
            batch := by
          rw [hbatchdef]
          exact take_take_length _ _
        have hscored : keywordScanScore qt
            (pop.take (s.totalDocsProcessed + batch.length)) =
            keywordScanScore qt (pop.take s.totalDocsProcessed) ++
              keywordScanScore qt batch := by
          rw [List.take_add, keywordScanScore_append, htake]
        simp only [processBatch_eq_scanScore]
        by_cases hearly : topK * 3 ≤ (s.scoredResults ++
            keywordScanScore qt batch).length ∧ 2 ≤ page
        · rw [if_pos hearly]
          simp only []
          refine ⟨⟨?_, hbs_pop, ?_⟩, ?_⟩
          · rw [maxScanLimitConfig]
            rw [maxKeywordPagesConfig] at hfp
            rw [keywordBatchSizeConfig] at htot hbs_le
            omega
          · rw [hscored, hsc]
          · intro p hp _ _
            rw [keywordBatchSizeConfig] at htot hbs_le ⊢
            omega
        · rw [if_neg hearly]
          by_cases hshort : batch.length < keywordBatchSizeConfig
          · rw [if_pos hshort]
            simp only []
            refine ⟨⟨?_, hbs_pop, ?_⟩, ?_⟩
            · rw [maxScanLimitConfig]
              rw [maxKeywordPagesConfig] at hfp
              rw [keywordBatchSizeConfig] at htot hbs_le
              omega
            · rw [hscored, hsc]
            · intro p hp _ _
              rw [keywordBatchSizeConfig] at htot hbs_le ⊢
              omega
          · rw [if_neg hshort]
            have hbs_eq : batch.length = keywordBatchSizeConfig := by omega
            have hres := ih (page + 1)
              { scoredResults := s.scoredResults ++ keywordScanScore qt batch,
                totalDocsProcessed := s.totalDocsProcessed + batch.length,
                currentOffset := s.currentOffset + batch.length,
                totalDocsEstimate :=
                  if page = 0 ∧ batch.length = keywordBatchSizeConfig then
                    min maxScanLimitConfig
                      (batch.length * maxKeywordPagesConfig)
                  else s.totalDocsEstimate }
              (by omega) (by simp only []; omega)
              (by simp only []; rw [hbs_eq, htot]; ring)
              (by simp only []; exact hbs_pop)
              (by simp only []; rw [hscored, hsc])
            refine ⟨hres.1, ?_⟩
            intro p hp h2p hcount
            by_cases hpp : page + 1 ≤ p
            · exact hres.2 p hpp h2p hcount
            · have hpeq : p = page := by omega
              exfalso
              apply hearly
              subst hpeq
              constructor
              · have heq : s.totalDocsProcessed + batch.length =
                    keywordBatchSizeConfig * (p + 1) := by
                  rw [htot, hbs_eq]; ring
                rw [hsc, ← keywordScanScore_append, ← htake, ← List.take_add,
                  heq]
                exact hcount
              · omega

/-- Claim C6: over any passage population, the keyword scan fetches pages of
the configured batch size (100), never processes more than the hard ceiling
of 2,000 passages (nor more passages than the population holds, in at most
20 pages), the returned candidates are exactly the positive-scoring
passages of the scanned population prefix, and the scan stops early once at
least `3 * topK` positive candidates exist after a minimum of three pages
(the prefix scanned then stays within `100 * (p + 1)` passages, where page
`p ≥ 2` is the page satisfying the early-termination test). -/
theorem C6_keywordSearch_scan_bounds (pop : List (Str × RMeta))
    (query : Str) (topK : Nat) :
    ((kwLoop (envOfPopulation pop) (tokenizeForBM25 (jsToLower query)) topK
        maxKeywordPagesConfig 0 kwInitState).totalDocsProcessed ≤
      maxScanLimitConfig) ∧
    ((kwLoop (envOfPopulation pop) (tokenizeForBM25 (jsToLower query)) topK
        maxKeywordPagesConfig 0 kwInitState).totalDocsProcessed ≤
      pop.length) ∧
    (keywordSearch (envOfPopulation pop) query topK =
      Except.ok ((sortByScoreDesc (keywordScanScore
        (tokenizeForBM25 (jsToLower query))
        (pop.take (kwLoop (envOfPopulation pop)
          (tokenizeForBM25 (jsToLower query)) topK maxKeywordPagesConfig 0
          kwInitState).totalDocsProcessed))).take topK)) ∧
    (∀ p, 2 ≤ p →
      topK * 3 ≤ (keywordScanScore (tokenizeForBM25 (jsToLower query))
        (pop.take (keywordBatchSizeConfig * (p + 1)))).length →
      (kwLoop (envOfPopulation pop) (tokenizeForBM25 (jsToLower query)) topK
        maxKeywordPagesConfig 0 kwInitState).totalDocsProcessed ≤
        keywordBatchSizeConfig * (p + 1)) := by
  have hspec := kwLoop_pop_spec pop (tokenizeForBM25 (jsToLower query)) topK
    maxKeywordPagesConfig 0 kwInitState rfl rfl rfl (Nat.zero_le _) rfl
  refine ⟨hspec.1.1, hspec.1.2.1, ?_, fun p hp => hspec.2 p (Nat.zero_le p) hp⟩
  have hks : keywordSearch (envOfPopulation pop) query topK =
      Except.ok ((sortByScoreDesc (kwLoop (envOfPopulation pop)
        (tokenizeForBM25 (jsToLower query)) topK maxKeywordPagesConfig 0
        kwInitState).scoredResults).take topK) := rfl
  rw [hks, hspec.1.2.2]

/-- Witness for C6: the early-termination bound applied at `p = 2`,
`topK = 0` over the empty population. -/
theorem C6_witness :
    (2 ≤ 2) ∧
    (0 * 3 ≤ (keywordScanScore (tokenizeForBM25 (jsToLower "tax".data))
      (([] : List (Str × RMeta)).take (keywordBatchSizeConfig * 3))).length) ∧
    (kwLoop (envOfPopulation []) (tokenizeForBM25 (jsToLower "tax".data)) 0
      maxKeywordPagesConfig 0 kwInitState).totalDocsProcessed ≤
      keywordBatchSizeConfig * 3 :=
  ⟨le_rfl, Nat.zero_le _,
    (C6_keywordSearch_scan_bounds [] "tax".data 0).2.2.2 2 le_rfl
      (Nat.zero_le _)⟩

theorem retrieveDocuments_vec_error (env : RetrieveEnv) (query : Str)
    (topK : Nat) (e : Str) (h : env.vectorResults = Except.error e) :
    retrieveDocuments env query topK =
      Except.error (wrapRetrievalError e) := by
  simp only [retrieveDocuments]
  rw [h]

theorem keywordSearch_coll_error (env : ChromaEnv) (query : Str) (topK : Nat)
    (e : Str) (h : env.getCollection = Except.error e) :
    keywordSearch env query topK = Except.error e := by
  simp only [keywordSearch]
  rw [h]

theorem keywordSearch_coll_ok (env : ChromaEnv) (query : Str) (topK : Nat)
    (h : env.getCollection = Except.ok ()) :
    keywordSearch env query topK =
      Except.ok ((sortByScoreDesc (kwLoop env
        (tokenizeForBM25 (jsToLower query)) topK maxKeywordPagesConfig 0
        kwInitState).scoredResults).take topK) := by
  simp only [keywordSearch]
  rw [h]

theorem retrieveDocuments_ok_shape (env : RetrieveEnv) (query : Str)
    (topK : Nat) (v : List RetrievalResult)
    (hv : env.vectorResults = Except.ok v)
    (hc : env.chroma.getCollection = Except.ok ()) :
    retrieveDocuments env query topK =
      Except.ok (applyMMR (fuseResults v
        ((sortByScoreDesc (kwLoop env.chroma
            (tokenizeForBM25 (jsToLower query)) (min (topK * 2) 20)
            maxKeywordPagesConfig 0 kwInitState).scoredResults).take
          (min (topK * 2) 20)) hybridAlphaConfig) topK mmrLambdaConfig) := by
  simp only [retrieveDocuments]
  rw [hv, keywordSearch_coll_ok env.chroma query (min (topK * 2) 20) hc]

theorem retrieveDocuments_coll_error (env : RetrieveEnv) (query : Str)
    (topK : Nat) (v : List RetrievalResult) (e : Str)
    (hv : env.vectorResults = Except.ok v)
    (hc : env.chroma.getCollection = Except.error e) :
    retrieveDocuments env query topK =
      Except.error (wrapRetrievalError e) := by
  simp only [retrieveDocuments]
  rw [hv, keywordSearch_coll_error env.chroma query (min (topK * 2) 20) e hc]

/-- Counterexample to claim C9 as stated: with the vector channel healthy
but every keyword batch fetch throwing, the per-batch `try/catch` inside
`keywordSearch` swallows the store failure, the scan contributes zero
candidates, and `retrieveDocuments` succeeds with vector-only results — a
non-optional-profile stage failure that is not fatal and silently yields
partial (keyword-free) results as if complete. -/
theorem C9_counterexample :
    envBatchFail.chroma.getBatch keywordBatchSizeConfig 0 =
      Except.error ("store down".data) ∧
    retrieveDocuments envBatchFail "tax".data 5 =
      Except.ok [⟨rKeyA.content, rKeyA.metadata,
        rKeyA.score * hybridAlphaConfig, RSource.hybrid⟩] :=
  ⟨rfl, rfl⟩

/-- Claim C9 (amended): a failure of the vector channel or of acquiring the
keyword collection is fatal to `retrieveDocuments` and surfaces as a
retrieval error (never as an empty-but-successful result); the call
succeeds exactly when those two stages succeed.  Errors thrown by
individual keyword batch fetches, however, are swallowed by the per-batch
`try/catch`: the scan stops early, the candidates scored so far are used,
and the call still succeeds — degraded keyword recall is silently returned
as if complete (see the counterexample). -/
theorem C9_retrieveDocuments (env : RetrieveEnv) (query : Str) (topK : Nat) :
    (∀ e, env.vectorResults = Except.error e →
      retrieveDocuments env query topK =
        Except.error (wrapRetrievalError e)) ∧
    (∀ v e, env.vectorResults = Except.ok v →
      env.chroma.getCollection = Except.error e →
      retrieveDocuments env query topK =
        Except.error (wrapRetrievalError e)) ∧
    ((∃ r, retrieveDocuments env query topK = Except.ok r) ↔
      ((∃ v, env.vectorResults = Except.ok v) ∧
        env.chroma.getCollection = Except.ok ())) := by
  refine ⟨fun e he => retrieveDocuments_vec_error env query topK e he,
    fun v e hv hc => retrieveDocuments_coll_error env query topK v e hv hc,
    ?_⟩
  constructor
  · rintro ⟨r, hr⟩
    cases hv : env.vectorResults with
    | error e =>
      rw [retrieveDocuments_vec_error env query topK e hv] at hr
      exact absurd hr (by simp)
    | ok v =>
      cases hc : env.chroma.getCollection with
      | error e =>
        rw [retrieveDocuments_coll_error env query topK v e hv hc] at hr
        exact absurd hr (by simp)
      | ok u =>
        cases u
        exact ⟨⟨v, rfl⟩, rfl⟩
  · rintro ⟨⟨v, hv⟩, hc⟩
    exact ⟨_, retrieveDocuments_ok_shape env query topK v hv hc⟩

/-- Witness for C9: the vector-failure path is fatal with a wrapped error,
and a healthy vector/collection pair yields a successful call. -/
theorem C9_witness :
    envVecFail.vectorResults = Except.error ("embedding down".data) ∧
    retrieveDocuments envVecFail "tax".data 5 =
      Except.error (wrapRetrievalError ("embedding down".data)) ∧
    (∃ r, retrieveDocuments envBatchFail "tax".data 5 = Except.ok r) :=
  ⟨rfl, (C9_retrieveDocuments envVecFail "tax".data 5).1 _ rfl,
    (C9_retrieveDocuments envBatchFail "tax".data 5).2.2.mpr
      ⟨⟨[rKeyA], rfl⟩, rfl⟩⟩

theorem objGet_append (a b : MObj) (k : Str) :
    objGet (a ++ b) k =
      match objGet b k with
      | some v => some v
      | none => objGet a k := by
  rw [objGet, objGet, objGet, List.reverse_append, List.find?_append]
  cases hb : List.find? (fun p => p.1 = k) b.reverse with
  | some v => simp [Option.orElse, hb]
  | none => simp [Option.orElse, hb]

theorem objGet_builtins_hasTable (encode : Str → Nat)
    (content documentId : Str) (chunkIndex : Nat) (sec sub : Str) :
    objGet (chunkBuiltins encode content documentId chunkIndex sec sub)
      ("hasTable".data) = some (MVal.bool (hasTableOf content)) := by
  rw [chunkBuiltins]
  by_cases hsec : sec = [] <;> by_cases hsub : sub = [] <;>
    simp only [hsec, hsub, if_pos, if_neg, ite_true, ite_false] <;> rfl

theorem objGet_builtins_hasFormula (encode : Str → Nat)
    (content documentId : Str) (chunkIndex : Nat) (sec sub : Str) :
    objGet (chunkBuiltins encode content documentId chunkIndex sec sub)
      ("hasFormula".data) = some (MVal.bool (hasFormulaOf content)) := by
  rw [chunkBuiltins]
  by_cases hsec : sec = [] <;> by_cases hsub : sub = [] <;>
    simp only [hsec, hsub, if_pos, if_neg, ite_true, ite_false] <;> rfl

theorem objGet_builtins_hasNumbers (encode : Str → Nat)
    (content documentId : Str) (chunkIndex : Nat) (sec sub : Str) :
    objGet (chunkBuiltins encode content documentId chunkIndex sec sub)
      ("hasNumbers".data) = some (MVal.bool (hasNumbersOf content)) := by
  rw [chunkBuiltins]
  by_cases hsec : sec = [] <;> by_cases hsub : sub = [] <;>
    simp only [hsec, hsub, if_pos, if_neg, ite_true, ite_false] <;> rfl

/-- Claim C8: in the current service's `createDocumentChunk` (document-level
metadata spread first), the stored `hasTable`/`hasFormula`/`hasNumbers`
flags are always the booleans computed from the passage text, whatever the
caller supplies; but in the legacy `createDocumentChunk` of
`backend/src/services/ragService.ts` the `...baseMetadata` spread comes
last, so a caller-supplied `hasTable: true` overrides the computed `false`
for a passage without a table — the claim holds for the current code and is
violated by the legacy file (a code bug relative to the stated invariant
and the current version's own comment). -/
theorem C8_metadata_precedence :
    (∀ (encode : Str → Nat) (base : MObj) (content documentId : Str)
      (chunkIndex : Nat) (sec sub : Str),
      objGet (createDocumentChunkMeta encode base content documentId
        chunkIndex sec sub) ("hasTable".data) =
        some (MVal.bool (hasTableOf content)) ∧
      objGet (createDocumentChunkMeta encode base content documentId
        chunkIndex sec sub) ("hasFormula".data) =
        some (MVal.bool (hasFormulaOf content)) ∧
      objGet (createDocumentChunkMeta encode base content documentId
        chunkIndex sec sub) ("hasNumbers".data) =
        some (MVal.bool (hasNumbersOf content))) ∧
    (hasTableOf ("no table here".data) = false ∧
      objGet (createDocumentChunkMetaLegacy List.length
          [("hasTable".data, MVal.bool true)] ("no table here".data)
          ("doc1".data) 0 [] []) ("hasTable".data) =
        some (MVal.bool true) ∧
      objGet (createDocumentChunkMeta List.length
          [("hasTable".data, MVal.bool true)] ("no table here".data)
          ("doc1".data) 0 [] []) ("hasTable".data) =
        some (MVal.bool false)) := by
  refine ⟨?_, by decide, by decide, by decide⟩
  intro encode base content documentId chunkIndex sec sub
  rw [createDocumentChunkMeta, objGet_append, objGet_append, objGet_append]
  rw [objGet_builtins_hasTable, objGet_builtins_hasFormula,
    objGet_builtins_hasNumbers]
  exact ⟨rfl, rfl, rfl⟩

theorem toDigitsCore_shift (b : Nat) :
    ∀ (f n : Nat) (l : List Char),
      Nat.toDigitsCore b f n l = Nat.toDigitsCore b f n [] ++ l := by
  intro f
  induction f with
  | zero => intro n l; rfl
  | succ f ih =>
    intro n l
    rw [Nat.toDigitsCore, Nat.toDigitsCore]
    by_cases h : n / b = 0
    · rw [if_pos h, if_pos h]
      rfl
    · rw [if_neg h, if_neg h, ih (n / b) (Nat.digitChar (n % b) :: l),
        ih (n / b) [Nat.digitChar (n % b)]]
      simp

theorem digitChar_isDigit : ∀ m, m < 10 → (Nat.digitChar m).isDigit = true := by
  decide

theorem digitChar_val : ∀ m, m < 10 →
    (Nat.digitChar m).toNat - Char.toNat '0' = m := by
  decide

theorem toDigitsCore_digits :
    ∀ (f n : Nat) (c : Char), c ∈ Nat.toDigitsCore 10 f n [] →
      c.isDigit = true := by
  intro f
  induction f with
  | zero => intro n c hc; simp [Nat.toDigitsCore] at hc
  | succ f ih =>
    intro n c hc
    rw [Nat.toDigitsCore] at hc
    by_cases h : n / 10 = 0
    · rw [if_pos h] at hc
      rw [List.mem_singleton] at hc
      subst hc
      exact digitChar_isDigit _ (Nat.mod_lt _ (by omega))
    · rw [if_neg h, toDigitsCore_shift] at hc
      rcases List.mem_append.mp hc with hc | hc
      · exact ih _ _ hc
      · rw [List.mem_singleton] at hc
        subst hc
        exact digitChar_isDigit _ (Nat.mod_lt _ (by omega))

theorem digitsVal_append_singleton (l : List Char) (c : Char) :
    digitsVal (l ++ [c]) =
      10 * digitsVal l + (c.toNat - Char.toNat '0') := by
  rw [digitsVal, digitsVal, List.foldl_append]
  rfl

theorem toDigitsCore_val :
    ∀ (f n : Nat), n < f → digitsVal (Nat.toDigitsCore 10 f n []) = n := by
  intro f
  induction f with
  | zero => intro n h; omega
  | succ f ih =>
    intro n h
    rw [Nat.toDigitsCore]
    by_cases hdiv : n / 10 = 0
    · rw [if_pos hdiv]
      have hn : n < 10 := by omega
      have : digitsVal [Nat.digitChar (n % 10)] =
          (Nat.digitChar (n % 10)).toNat - Char.toNat '0' := by
        rw [digitsVal]
        simp [List.foldl]
      rw [this, digitChar_val _ (Nat.mod_lt _ (by omega)),
        Nat.mod_eq_of_lt hn]
    · rw [if_neg hdiv, toDigitsCore_shift, digitsVal_append_singleton]
      have hlt : n / 10 < f := by
        have h1 : 0 < n := by
          by_contra hz
          have : n = 0 := by omega
          subst this
          simp at hdiv
        have := Nat.div_lt_self h1 (by omega : 1 < 10)
        omega
      rw [ih _ hlt, digitChar_val _ (Nat.mod_lt _ (by omega))]
      omega

theorem reprC_val (n : Nat) : digitsVal ((Nat.repr n).data) = n := by
  have h1 : (Nat.repr n).data = Nat.toDigitsCore 10 (n + 1) n [] := rfl
  rw [h1]
  exact toDigitsCore_val (n + 1) n (Nat.lt_succ_self n)

theorem reprC_inj (n₁ n₂ : Nat) (h : (Nat.repr n₁).data = (Nat.repr n₂).data) :
    n₁ = n₂ := by
  have := congrArg digitsVal h
  rw [reprC_val, reprC_val] at this
  exact this

theorem reprC_digits (n : Nat) :
    ∀ c ∈ (Nat.repr n).data, c.isDigit = true := by
  intro c hc
  have h1 : (Nat.repr n).data = Nat.toDigitsCore 10 (n + 1) n [] := rfl
  rw [h1] at hc
  exact toDigitsCore_digits _ _ _ hc

theorem takeWhile_append_of_all (p : Char → Bool) :
    ∀ (l₁ l₂ : List Char), (∀ c ∈ l₁, p c = true) →
      (l₁ ++ l₂).takeWhile p = l₁ ++ l₂.takeWhile p := by
  intro l₁
  induction l₁ with
  | nil => intro l₂ _; rfl
  | cons c t ih =>
    intro l₂ h
    rw [List.cons_append, List.takeWhile_cons, h c (List.mem_cons_self c t)]
    rw [if_pos rfl, ih l₂ (fun x hx => h x (List.mem_cons_of_mem c hx)),
      List.cons_append]

theorem takeWhile_nil_of_head_neg (p : Char → Bool) (c : Char) (l : List Char)
    (h : p c = false) : (c :: l).takeWhile p = [] := by
  rw [List.takeWhile_cons, h]
  rw [if_neg (by simp)]

theorem idStr_digit_suffix (d M : Str) (n : Nat) (c : Char) (t : Str)
    (hM : M.reverse = c :: t) (hc : c.isDigit = false) :
    (d ++ M ++ (Nat.repr n).data).reverse.takeWhile Char.isDigit =
      (Nat.repr n).data.reverse := by
  have h1 : (d ++ M ++ (Nat.repr n).data).reverse =
      (Nat.repr n).data.reverse ++ (M.reverse ++ d.reverse) := by
    simp [List.append_assoc]
  rw [h1, takeWhile_append_of_all _ _ _
    (fun x hx => reprC_digits n x (List.mem_reverse.mp hx)),
    hM, List.cons_append, takeWhile_nil_of_head_neg _ _ _ hc, List.append_nil]

theorem mkChunkIdStr_inj (d₁ d₂ : Str) (i₁ i₂ : Nat)
    (h : mkChunkIdStr d₁ i₁ = mkChunkIdStr d₂ i₂) : d₁ = d₂ ∧ i₁ = i₂ := by
  have hM : ("_chunk_".data).reverse = '_' :: ("_chunk_".data).reverse.tail :=
    by decide
  have h' : d₁ ++ ("_chunk_".data) ++ (Nat.repr i₁).data =
      d₂ ++ ("_chunk_".data) ++ (Nat.repr i₂).data := h
  have hs := congrArg (fun l => l.reverse.takeWhile Char.isDigit) h'
  simp only [] at hs
  rw [idStr_digit_suffix _ _ _ _ _ hM (by decide),
    idStr_digit_suffix _ _ _ _ _ hM (by decide)] at hs
  have hi : i₁ = i₂ := reprC_inj _ _ (List.reverse_injective hs)
  subst hi
  refine ⟨?_, rfl⟩
  exact List.append_cancel_right (List.append_cancel_right h')

theorem mkFallbackIdStr_inj (d₁ d₂ : Str) (i₁ i₂ : Nat)
    (h : mkFallbackIdStr d₁ i₁ = mkFallbackIdStr d₂ i₂) :
    d₁ = d₂ ∧ i₁ = i₂ := by
  have hM : ("_fallback_".data).reverse =
      '_' :: ("_fallback_".data).reverse.tail := by decide
  have h' : d₁ ++ ("_fallback_".data) ++ (Nat.repr i₁).data =
      d₂ ++ ("_fallback_".data) ++ (Nat.repr i₂).data := h
  have hs := congrArg (fun l => l.reverse.takeWhile Char.isDigit) h'
  simp only [] at hs
  rw [idStr_digit_suffix _ _ _ _ _ hM (by decide),
    idStr_digit_suffix _ _ _ _ _ hM (by decide)] at hs
  have hi : i₁ = i₂ := reprC_inj _ _ (List.reverse_injective hs)
  subst hi
  refine ⟨?_, rfl⟩
  exact List.append_cancel_right (List.append_cancel_right h')

theorem mkChunkIdStr_ne_fallback (d₁ d₂ : Str) (i₁ i₂ : Nat) :
    mkChunkIdStr d₁ i₁ ≠ mkFallbackIdStr d₂ i₂ := by
  intro h
  have hMc : ("_chunk_".data).reverse = '_' :: ("_chunk_".data).reverse.tail :=
    by decide
  have hMf : ("_fallback_".data).reverse =
      '_' :: ("_fallback_".data).reverse.tail := by decide
  have h' : d₁ ++ ("_chunk_".data) ++ (Nat.repr i₁).data =
      d₂ ++ ("_fallback_".data) ++ (Nat.repr i₂).data := h
  have hs := congrArg (fun l => l.reverse.takeWhile Char.isDigit) h'
  simp only [] at hs
  rw [idStr_digit_suffix _ _ _ _ _ hMc (by decide),
    idStr_digit_suffix _ _ _ _ _ hMf (by decide)] at hs
  have hr := List.reverse_injective hs
  rw [hr] at h'
  have h2 := List.append_cancel_right h'
  have h3 := congrArg (fun l => l.reverse.take 3) h2
  simp only [List.reverse_append] at h3
  have e1 : (("_chunk_".data).reverse ++ d₁.reverse).take 3 = "_kn".data := rfl
  have e2 : (("_fallback_".data).reverse ++ d₂.reverse).take 3 =
      "_kc".data := rfl
  rw [e1, e2] at h3
  exact absurd h3 (by decide)

theorem get_append_left_my {α : Type} (l₁ l₂ : List α) (j : Nat)
    (hj : j < l₁.length) (h : j < (l₁ ++ l₂).length) :
    (l₁ ++ l₂).get ⟨j, h⟩ = l₁.get ⟨j, hj⟩ := by
  induction l₁ generalizing j with
  | nil => exact absurd hj (Nat.not_lt_zero j)
  | cons x t ih =>
    cases j with
    | zero => rfl
    | succ j =>
        exact ih j (Nat.lt_of_succ_lt_succ hj) (Nat.lt_of_succ_lt_succ h)

theorem get_append_last {α : Type} (l : List α) (a : α)
    (h : l.length < (l ++ [a]).length) :
    (l ++ [a]).get ⟨l.length, h⟩ = a := by
  induction l with
  | nil => rfl
  | cons x t ih => exact ih (by simp)

theorem IdsOk_nil (mkId : Nat → Str) (documentId : Str) :
    IdsOk mkId documentId [] :=
  fun j hj => absurd hj (Nat.not_lt_zero j)

theorem IdsOk_append (mkId : Nat → Str) (documentId : Str)
    (l : List DocumentChunk) (c : DocumentChunk) (h : IdsOk mkId documentId l)
    (hid : c.chunkId = mkId l.length) (hix : c.chunkIndex = l.length)
    (hdoc : c.documentId = documentId) :
    IdsOk mkId documentId (l ++ [c]) := by
  intro j hj
  by_cases hlt : j < l.length
  · rw [get_append_left_my _ _ _ hlt]
    exact h j hlt
  · have hj2 : j = l.length := by
      rw [List.length_append, List.length_singleton] at hj
      omega
    subst hj2
    rw [get_append_last]
    exact ⟨hid, hix, hdoc⟩

theorem IdInv_congr (documentId : Str) (s t : ChunkState)
    (hc : t.chunks = s.chunks) (hi : t.chunkIndex = s.chunkIndex)
    (h : IdInv documentId s) : IdInv documentId t := by
  refine ⟨by rw [hi, hc]; exact h.1, ?_⟩
  intro j hj
  rw [List.get_of_eq hc ⟨j, hj⟩]
  exact h.2 j _

theorem flushAndRestart_IdInv (encode : Str → Nat) (documentId : Str)
    (s : ChunkState) (cont : Str) (h : IdInv documentId s) :
    IdInv documentId (flushAndRestart encode documentId s cont) := by
  constructor
  · have h1 : (flushAndRestart encode documentId s cont).chunkIndex =
        s.chunkIndex + 1 := rfl
    have h2 : (flushAndRestart encode documentId s cont).chunks =
        s.chunks ++ [createDocumentChunk encode (jsTrim s.currentChunk)
          documentId s.chunkIndex s.currentSection s.currentSubsection] := rfl
    rw [h1, h2, List.length_append, List.length_singleton, h.1]
  · exact IdsOk_append _ _ _ _ h.2 (by rw [← h.1]; rfl) (by rw [← h.1]; rfl)
      rfl

theorem sectionUpdate_IdInv (documentId line : Str) (s : ChunkState)
    (h : IdInv documentId s) : IdInv documentId (sectionUpdate line s) := by
  have hc : (sectionUpdate line s).chunks = s.chunks := by
    rw [sectionUpdate]
    split
    · rfl
    · split
      · rfl
      · rfl
  have hi : (sectionUpdate line s).chunkIndex = s.chunkIndex := by
    rw [sectionUpdate]
    split
    · rfl
    · split
      · rfl
      · rfl
  exact IdInv_congr documentId s _ hc hi h

theorem s2_IdInv (encode : Str → Nat) (documentId line : Str)
    (s1 : ChunkState) (h1 : IdInv documentId s1) (cond : Prop)
    [Decidable cond] (nc : Str) (nt : Nat) :
    IdInv documentId (if cond then flushAndRestart encode documentId s1 line
      else { s1 with currentChunk := nc, currentTokenCount := nt }) := by
  split
  · exact flushAndRestart_IdInv _ _ _ _ h1
  · exact IdInv_congr _ _ _ rfl rfl h1

theorem s3_IdInv (encode : Str → Nat) (documentId : Str) (cont : Str)
    (s2 : ChunkState) (h2 : IdInv documentId s2) (cond : Prop)
    [Decidable cond] :
    IdInv documentId
      (if cond then flushAndRestart encode documentId s2 cont else s2) := by
  split
  · exact flushAndRestart_IdInv _ _ _ _ h2
  · exact h2

theorem chunkLoop_IdInv (encode : Str → Nat) (documentId : Str)
    (lines : List Str) :
    ∀ (fuel i : Nat) (s : ChunkState), IdInv documentId s →
      IdInv documentId (chunkLoop encode documentId lines fuel i s) := by
  intro fuel
  induction fuel with
  | zero => intro i s h; exact h
  | succ fuel ih =>
    intro i s h
    rw [chunkLoop]
    rcases hline : lines.get? i with _ | line
    · simp only [hline]
      exact h
    · simp only [hline]
      by_cases hemp : line = []
      · rw [if_pos hemp]
        exact ih _ _ h
      · rw [if_neg hemp]
        have h1 : IdInv documentId (sectionUpdate line s) :=
          sectionUpdate_IdInv documentId line s h
        split
        · split
          · exact ih _ _ (s3_IdInv _ _ _ _ (s2_IdInv _ _ _ _ h1 _ _ _) _)
          · exact ih _ _ (s2_IdInv _ _ _ _ h1 _ _ _)
        · exact ih _ _ (s2_IdInv _ _ _ _ h1 _ _ _)

theorem finalize_ids (encode : Str → Nat) (documentId : Str) (s : ChunkState)
    (h : IdInv documentId s) :
    IdsOk (mkChunkIdStr documentId) documentId
      (if jsTrim s.currentChunk ≠ [] then
        s.chunks ++ [createDocumentChunk encode (jsTrim s.currentChunk)
          documentId s.chunkIndex s.currentSection s.currentSubsection]
      else s.chunks) := by
  by_cases hc : jsTrim s.currentChunk ≠ []
  · rw [if_pos hc]
    exact IdsOk_append _ _ _ _ h.2 (by rw [← h.1]; rfl) (by rw [← h.1]; rfl)
      rfl
  · rw [if_neg hc]
    exact h.2

theorem chunkDocument_ids (encode : Str → Nat) (content documentId : Str) :
    IdsOk (mkChunkIdStr documentId) documentId
      (chunkDocument encode content documentId) := by
  have heq : chunkDocument encode content documentId =
      (if jsTrim (chunkLoop encode documentId
            (splitNl (preprocessDocumentContent content))
            ((splitNl (preprocessDocumentContent content)).length + 1) 0
            chunkInitState).currentChunk ≠ [] then
        (chunkLoop encode documentId
            (splitNl (preprocessDocumentContent content))
            ((splitNl (preprocessDocumentContent content)).length + 1) 0
            chunkInitState).chunks ++
          [createDocumentChunk encode
            (jsTrim (chunkLoop encode documentId
              (splitNl (preprocessDocumentContent content))
              ((splitNl (preprocessDocumentContent content)).length + 1) 0
              chunkInitState).currentChunk) documentId
            (chunkLoop encode documentId
              (splitNl (preprocessDocumentContent content))
              ((splitNl (preprocessDocumentContent content)).length + 1) 0
              chunkInitState).chunkIndex
            (chunkLoop encode documentId
              (splitNl (preprocessDocumentContent content))
              ((splitNl (preprocessDocumentContent content)).length + 1) 0
              chunkInitState).currentSection
            (chunkLoop encode documentId
              (splitNl (preprocessDocumentContent content))
              ((splitNl (preprocessDocumentContent content)).length + 1) 0
              chunkInitState).currentSubsection]
      else (chunkLoop encode documentId
            (splitNl (preprocessDocumentContent content))
            ((splitNl (preprocessDocumentContent content)).length + 1) 0
            chunkInitState).chunks) := rfl
  rw [heq]
  exact finalize_ids encode documentId _
    (chunkLoop_IdInv encode documentId _ _ _ _ ⟨rfl, IdsOk_nil _ _⟩)

theorem fallbackLoop_ids (encode : Str → Nat) (documentId : Str) :
    ∀ (words : List Str) (cur : Str) (idx : Nat)
      (chunks : List DocumentChunk), idx = chunks.length →
      IdsOk (mkFallbackIdStr documentId) documentId chunks →
      (fallbackLoop encode documentId words cur idx chunks).2.2 =
          (fallbackLoop encode documentId words cur idx chunks).1.length ∧
      IdsOk (mkFallbackIdStr documentId) documentId
        (fallbackLoop encode documentId words cur idx chunks).1 := by
  intro words
  induction words with
  | nil => intro cur idx chunks hidx hids; exact ⟨hidx, hids⟩
  | cons word rest ih =>
    intro cur idx chunks hidx hids
    rw [fallbackLoop]
    split
    · split
      · refine ih word (idx + 1) _ ?_ ?_
        · rw [List.length_append, List.length_singleton, hidx]
        · refine IdsOk_append _ _ _ _ hids ?_ ?_ rfl
          · rw [← hidx]; rfl
          · rw [← hidx]; rfl
      · exact ih _ _ _ hidx hids
    · split
      · refine ih word (idx + 1) _ ?_ ?_
        · rw [List.length_append, List.length_singleton, hidx]
        · refine IdsOk_append _ _ _ _ hids ?_ ?_ rfl
          · rw [← hidx]; rfl
          · rw [← hidx]; rfl
      · exact ih _ _ _ hidx hids

theorem fallbackChunking_ids (encode : Str → Nat) (content documentId : Str) :
    IdsOk (mkFallbackIdStr documentId) documentId
      (fallbackChunking encode content documentId) := by
  have h := fallbackLoop_ids encode documentId (jsSplitWs content) [] 0 []
    rfl (IdsOk_nil _ _)
  rw [fallbackChunking]
  split
  · refine IdsOk_append _ _ _ _ h.2 ?_ ?_ rfl
    · rw [← h.1]; rfl
    · rw [← h.1]; rfl
  · exact h.2

/-- Claim C7, the stated id format fails: chunking the one-line document
"hello" under document id "d" yields a single chunk whose id is
"d_chunk_0" (and the fallback path would yield "d_fallback_0"), not the
claimed `{document_id}_{sequence}` form "d_0". -/
theorem C7_counterexample :
    (chunkDocument (fun s => s.length) "hello".data "d".data).map
      (fun c => c.chunkId) = ["d_chunk_0".data] ∧
    "d_chunk_0".data ≠ "d".data ++ "_0".data ∧
    (fallbackChunking (fun s => s.length) "hello".data "d".data).map
      (fun c => c.chunkId) = ["d_fallback_0".data] :=
  ⟨by decide, by decide, by decide⟩

/-- Claim C7 (corrected): ids are not of the form `{document_id}_{sequence}`;
the chunk at 0-based position `j` of `chunkDocument` carries the id
`{documentId}_chunk_{j}` together with `chunkIndex = j` and its owning
document id, the chunk at position `j` of `fallbackChunking` carries
`{documentId}_fallback_{j}`, and these ids are globally unique: two semantic
ids (or two fallback ids) agree exactly when both the document id and the
position agree, and a semantic id never equals a fallback id. -/
theorem C7_chunk_ids (encode : Str → Nat) (content documentId : Str)
    (d₁ d₂ : Str) (i₁ i₂ : Nat) :
    IdsOk (mkChunkIdStr documentId) documentId
      (chunkDocument encode content documentId) ∧
    IdsOk (mkFallbackIdStr documentId) documentId
      (fallbackChunking encode content documentId) ∧
    (mkChunkIdStr d₁ i₁ = mkChunkIdStr d₂ i₂ ↔ d₁ = d₂ ∧ i₁ = i₂) ∧
    (mkFallbackIdStr d₁ i₁ = mkFallbackIdStr d₂ i₂ ↔ d₁ = d₂ ∧ i₁ = i₂) ∧
    mkChunkIdStr d₁ i₁ ≠ mkFallbackIdStr d₂ i₂ := by
  refine ⟨chunkDocument_ids _ _ _, fallbackChunking_ids _ _ _, ?_, ?_,
    mkChunkIdStr_ne_fallback _ _ _ _⟩
  · constructor
    · exact mkChunkIdStr_inj _ _ _ _
    · rintro ⟨rfl, rfl⟩
      rfl
  · constructor
    · exact mkFallbackIdStr_inj _ _ _ _
    · rintro ⟨rfl, rfl⟩
      rfl

theorem splitOnCharGo_no_sep (sep : Char) :
    ∀ (s acc : Str), (∀ c ∈ acc, c ≠ sep) →
      ∀ l ∈ splitOnCharGo sep s acc, sep ∉ l := by
  intro s
  induction s with
  | nil =>
    intro acc hacc l hl
    rw [splitOnCharGo, List.mem_singleton] at hl
    subst hl
    intro hmem
    exact hacc sep (List.mem_reverse.mp hmem) rfl
  | cons c rest ih =>
    intro acc hacc l hl
    rw [splitOnCharGo] at hl
    by_cases hc : c = sep
    · rw [if_pos hc] at hl
      rcases List.mem_cons.mp hl with hl | hl
      · subst hl
        intro hmem
        exact hacc sep (List.mem_reverse.mp hmem) rfl
      · exact ih [] (fun x hx => absurd hx (List.not_mem_nil x)) l hl
    · rw [if_neg hc] at hl
      refine ih (c :: acc) ?_ l hl
      intro x hx
      rcases List.mem_cons.mp hx with hx | hx
      · subst hx; exact hc
      · exact hacc x hx

theorem splitNl_no_nl (s : Str) : ∀ l ∈ splitNl s, ('\n' : Char) ∉ l :=
  splitOnCharGo_no_sep '\n' s []
    (fun x hx => absurd hx (List.not_mem_nil x))

theorem splitOnCharGo_no_sep_single (sep : Char) :
    ∀ (l acc : Str), sep ∉ l →
      splitOnCharGo sep l acc = [acc.reverse ++ l] := by
  intro l
  induction l with
  | nil => intro acc _; rw [splitOnCharGo, List.append_nil]
  | cons c rest ih =>
    intro acc hl
    rw [splitOnCharGo,
      if_neg (by intro h; subst h; exact hl (List.mem_cons_self _ _)),
      ih (c :: acc) (fun h => hl (List.mem_cons_of_mem c h)),
      List.reverse_cons, List.append_assoc]
    rfl

theorem splitNl_single (l : Str) (h : ('\n' : Char) ∉ l) :
    splitNl l = [l] := by
  rw [splitNl, splitOnChar, splitOnCharGo_no_sep_single '\n' l [] h]
  rfl

theorem splitOnCharGo_sep_append (sep : Char) :
    ∀ (l b acc : Str), sep ∉ l →
      splitOnCharGo sep (l ++ sep :: b) acc =
        (acc.reverse ++ l) :: splitOnCharGo sep b [] := by
  intro l
  induction l with
  | nil =>
    intro b acc _
    rw [List.nil_append, splitOnCharGo, if_pos rfl, List.append_nil]
  | cons c rest ih =>
    intro b acc hl
    rw [List.cons_append, splitOnCharGo,
      if_neg (by intro h; subst h; exact hl (List.mem_cons_self _ _)),
      ih b (c :: acc) (fun h => hl (List.mem_cons_of_mem c h)),
      List.reverse_cons, List.append_assoc]
    rfl

theorem lineTokenSum_cons (encode : Str → Nat) (line acc : Str)
    (hline : ('\n' : Char) ∉ line) :
    lineTokenSum encode (line ++ '\n' :: acc) =
      encode line + lineTokenSum encode acc := by
  rw [lineTokenSum, lineTokenSum, splitNl, splitNl, splitOnChar, splitOnChar,
    splitOnCharGo_sep_append '\n' line acc [] hline, List.map_cons,
    List.sum_cons]
  rfl

theorem lineTokenSum_nil (encode : Str → Nat) (Hnil : encode [] = 0) :
    lineTokenSum encode [] = 0 := by
  rw [lineTokenSum]
  have h : splitNl ([] : Str) = [[]] := rfl
  rw [h, List.map_cons, List.map_nil, List.sum_cons, List.sum_nil, Hnil]
  rfl

theorem overlapGo_budget (encode : Str → Nat) (B : Nat) :
    ∀ (ls : List Str) (acc : Str) (tc : Nat),
      (∀ l ∈ ls, ('\n' : Char) ∉ l) →
      lineTokenSum encode acc ≤ tc → tc ≤ B →
      lineTokenSum encode (overlapGo encode B ls acc tc) ≤ B := by
  intro ls
  induction ls with
  | nil =>
    intro acc tc _ hacc htc
    exact le_trans hacc htc
  | cons line rest ih =>
    intro acc tc hls hacc htc
    rw [overlapGo]
    split
    · next hguard =>
      refine ih _ _ (fun l hl => hls l (List.mem_cons_of_mem _ hl)) ?_ hguard
      by_cases hae : acc = []
      · rw [if_pos hae, List.append_nil, lineTokenSum,
          splitNl_single line (hls line (List.mem_cons_self _ _)),
          List.map_cons, List.map_nil, List.sum_cons, List.sum_nil]
        omega
      · rw [if_neg hae,
          lineTokenSum_cons encode line acc (hls line (List.mem_cons_self _ _))]
        omega
    · exact le_trans hacc htc

theorem extractOverlap_budget (encode : Str → Nat) (Hnil : encode [] = 0)
    (chunk : Str) :
    lineTokenSum encode
      (extractOverlapContent chunk chunkOverlapConfig encode) ≤
      chunkOverlapConfig := by
  rw [extractOverlapContent]
  refine overlapGo_budget encode chunkOverlapConfig _ _ _ ?_ ?_ (Nat.zero_le _)
  · intro l hl
    exact splitNl_no_nl chunk l (List.mem_reverse.mp hl)
  · rw [lineTokenSum_nil encode Hnil]

theorem BudgetInv_congr (encode : Str → Nat) (lines : List Str)
    (s t : ChunkState) (h1 : t.currentChunk = s.currentChunk)
    (h2 : t.currentTokenCount = s.currentTokenCount)
    (h3 : t.chunks = s.chunks) (h : BudgetInv encode lines s) :
    BudgetInv encode lines t := by
  refine ⟨?_, ?_, ?_⟩
  · rw [h1, h2]; exact h.1
  · rw [h2, h1]; exact h.2.1
  · rw [h3]; exact h.2.2

theorem sectionUpdate_budget (encode : Str → Nat) (lines : List Str)
    (line : Str) (s : ChunkState) (h : BudgetInv encode lines s) :
    BudgetInv encode lines (sectionUpdate line s) := by
  refine BudgetInv_congr encode lines s _ ?_ ?_ ?_ h
  · rw [sectionUpdate]
    split
    · rfl
    · split
      · rfl
      · rfl
  · rw [sectionUpdate]
    split
    · rfl
    · split
      · rfl
      · rfl
  · rw [sectionUpdate]
    split
    · rfl
    · split
      · rfl
      · rfl

theorem finalChunk_good (encode : Str → Nat) (lines : List Str)
    (Htrim : ∀ s, encode (jsTrim s) ≤ encode s) (Hnil : encode [] = 0)
    (s : ChunkState) (h : BudgetInv encode lines s) :
    encode (jsTrim s.currentChunk) ≤ chunkSizeConfig ∨
      OverlapRestartForm encode lines (jsTrim s.currentChunk) := by
  rcases h.2.1 with h2 | h2
  · left
    rcases h.1 with h1 | h1
    · rw [h1]
      have e : jsTrim ([] : Str) = ([] : Str) := rfl
      rw [e, Hnil]
      exact Nat.zero_le _
    · exact le_trans (Htrim _) (le_trans h1 h2)
  · right
    obtain ⟨ov, rest, hov, hrest, hw⟩ := h2
    exact ⟨ov, rest, hov, hrest, by rw [hw]⟩

theorem flushAndRestart_budget (encode : Str → Nat) (documentId : Str)
    (lines : List Str) (Htrim : ∀ s, encode (jsTrim s) ≤ encode s)
    (Hnil : encode [] = 0) (s : ChunkState) (cont : Str)
    (hcont : cont ∈ lines ∨
      ∃ j, j < lines.length ∧ cont = (extractSemanticUnit lines j).content)
    (h : BudgetInv encode lines s) :
    BudgetInv encode lines (flushAndRestart encode documentId s cont) := by
  refine ⟨Or.inr (Nat.le_refl _), Or.inr ?_, ?_⟩
  · exact ⟨extractOverlapContent s.currentChunk chunkOverlapConfig encode,
      cont, extractOverlap_budget encode Hnil s.currentChunk, hcont, rfl⟩
  · intro c hc
    rcases List.mem_append.mp hc with hc | hc
    · exact h.2.2 c hc
    · rw [List.mem_singleton] at hc
      subst hc
      exact finalChunk_good encode lines Htrim Hnil s h

theorem addLine_budget (encode : Str → Nat) (lines : List Str)
    (Hadd : ∀ a b : Str, encode (a ++ '\n' :: b) = encode a + 1 + encode b)
    (Hnil : encode [] = 0) (s1 : ChunkState) (line : Str)
    (hmem : line ∈ lines) (h : BudgetInv encode lines s1)
    (hno : ¬(chunkSizeConfig < s1.currentTokenCount + encode line + 1 ∧
      s1.currentChunk ≠ [])) :
    BudgetInv encode lines
      { s1 with
        currentChunk := s1.currentChunk ++
          (if s1.currentChunk = [] then [] else ['\n']) ++ line,
        currentTokenCount := s1.currentTokenCount + encode line + 1 } := by
  obtain ⟨h1, h2, h3⟩ := h
  by_cases hcur : s1.currentChunk = []
  · refine ⟨Or.inr ?_, Or.inr ?_, h3⟩
    · show encode (s1.currentChunk ++
          (if s1.currentChunk = [] then [] else ['\n']) ++ line) ≤
        s1.currentTokenCount + encode line + 1
      rw [hcur]
      show encode line ≤ s1.currentTokenCount + encode line + 1
      omega
    · refine ⟨[], line, ?_, Or.inl hmem, ?_⟩
      · rw [lineTokenSum_nil encode Hnil]
        exact Nat.zero_le _
      · show s1.currentChunk ++
            (if s1.currentChunk = [] then [] 
              else ['\n']) ++ line = ovCombine [] line
        rw [hcur]
        rfl
  · have hpot : s1.currentTokenCount + encode line + 1 ≤ chunkSizeConfig := by
      rcases Nat.lt_or_ge chunkSizeConfig
          (s1.currentTokenCount + encode line + 1) with hlt | hge
      · exact absurd ⟨hlt, hcur⟩ hno
      · exact hge
    refine ⟨Or.inr ?_, Or.inl hpot, h3⟩
    show encode (s1.currentChunk ++
        (if s1.currentChunk = [] then [] else ['\n']) ++ line) ≤
      s1.currentTokenCount + encode line + 1
    rw [if_neg hcur]
    have heq : s1.currentChunk ++ ['\n'] ++ line =
        s1.currentChunk ++ '\n' :: line := by
      rw [List.append_assoc]
      rfl
    rw [heq, Hadd]
    have hcc : encode s1.currentChunk ≤ s1.currentTokenCount := by
      rcases h1 with h1 | h1
      · exact absurd h1 hcur
      · exact h1
    omega

theorem step2_budget (encode : Str → Nat) (documentId : Str)
    (lines : List Str)
    (Hadd : ∀ a b : Str, encode (a ++ '\n' :: b) = encode a + 1 + encode b)
    (Htrim : ∀ s, encode (jsTrim s) ≤ encode s) (Hnil : encode [] = 0)
    (line : Str) (hmem : line ∈ lines) (s1 : ChunkState)
    (h1 : BudgetInv encode lines s1) :
    BudgetInv encode lines
      (if chunkSizeConfig < s1.currentTokenCount + encode line + 1 ∧
          s1.currentChunk ≠ [] then
        flushAndRestart encode documentId s1 line
      else
        { s1 with
          currentChunk := s1.currentChunk ++
            (if s1.currentChunk = [] then [] else ['\n']) ++ line,
          currentTokenCount := s1.currentTokenCount + encode line + 1 }) := by
  split
  · exact flushAndRestart_budget encode documentId lines Htrim Hnil s1 line
      (Or.inl hmem) h1
  · next hno =>
      exact addLine_budget encode lines Hadd Hnil s1 line hmem h1 hno

theorem step3_budget (encode : Str → Nat) (documentId : Str)
    (lines : List Str) (Htrim : ∀ s, encode (jsTrim s) ≤ encode s)
    (Hnil : encode [] = 0) (cont : Str)
    (hcont : cont ∈ lines ∨
      ∃ j, j < lines.length ∧ cont = (extractSemanticUnit lines j).content)
    (s2 : ChunkState) (h2 : BudgetInv encode lines s2) (cond : Prop)
    [Decidable cond] :
    BudgetInv encode lines
      (if cond then flushAndRestart encode documentId s2 cont else s2) := by
  split
  · exact flushAndRestart_budget encode documentId lines Htrim Hnil s2 cont
      hcont h2
  · exact h2

theorem chunkLoop_budget (encode : Str → Nat) (documentId : Str)
    (lines : List Str)
    (Hadd : ∀ a b : Str, encode (a ++ '\n' :: b) = encode a + 1 + encode b)
    (Htrim : ∀ s, encode (jsTrim s) ≤ encode s) (Hnil : encode [] = 0) :
    ∀ (fuel i : Nat) (s : ChunkState), BudgetInv encode lines s →
      BudgetInv encode lines (chunkLoop encode documentId lines fuel i s) := by
  intro fuel
  induction fuel with
  | zero => intro i s h; exact h
  | succ fuel ih =>
    intro i s h
    rw [chunkLoop]
    rcases hline : lines.get? i with _ | line
    · simp only [hline]
      exact h
    · simp only [hline]
      have hmem : line ∈ lines := List.get?_mem hline
      have hlen : i < lines.length := by
        rcases List.get?_eq_some.mp hline with ⟨hl, _⟩
        exact hl
      by_cases hemp : line = []
      · rw [if_pos hemp]
        exact ih _ _ h
      · rw [if_neg hemp]
        have h1 : BudgetInv encode lines (sectionUpdate line s) :=
          sectionUpdate_budget encode lines line s h
        split
        · split
          · exact ih _ _ (step3_budget encode documentId lines Htrim Hnil _
              (Or.inr ⟨i, hlen, rfl⟩) _
              (step2_budget encode documentId lines Hadd Htrim Hnil line hmem
                _ h1) _)
          · exact ih _ _ (step2_budget encode documentId lines Hadd Htrim Hnil
              line hmem _ h1)
        · exact ih _ _ (step2_budget encode documentId lines Hadd Htrim Hnil
            line hmem _ h1)

set_option maxHeartbeats 1600000 in
/-- Claim C3 (corrected): every emitted chunk (not only the non-final ones)
is within the 350-token budget, or else is of overlap-restart form: an
overlap carry of at most 60 per-line tokens followed by one document line or
one extracted structural unit, trimmed.  The encoder hypotheses say the
token model is line-additive (a newline costs one token), trimming never
increases the count, and the empty string costs nothing. -/
theorem C3_chunk_budget (encode : Str → Nat) (content documentId : Str)
    (Hadd : ∀ a b : Str, encode (a ++ '\n' :: b) = encode a + 1 + encode b)
    (Htrim : ∀ s : Str, encode (jsTrim s) ≤ encode s)
    (Hnil : encode [] = 0) :
    ∀ c ∈ chunkDocument encode content documentId,
      c.tokenCount ≤ chunkSizeConfig ∨
        OverlapRestartForm encode (chunkLines content) c.content := by
  have hfin : BudgetInv encode (chunkLines content)
      (chunkLoop encode documentId (chunkLines content)
        ((chunkLines content).length + 1) 0 chunkInitState) :=
    chunkLoop_budget encode documentId (chunkLines content) Hadd Htrim Hnil
      _ _ _ ⟨Or.inl rfl, Or.inl (Nat.zero_le _),
        fun c hc => absurd hc (List.not_mem_nil c)⟩
  have heq : chunkDocument encode content documentId =
      (if jsTrim (chunkLoop encode documentId (chunkLines content)
            ((chunkLines content).length + 1) 0
            chunkInitState).currentChunk ≠ [] then
        (chunkLoop encode documentId (chunkLines content)
            ((chunkLines content).length + 1) 0 chunkInitState).chunks ++
          [createDocumentChunk encode
            (jsTrim (chunkLoop encode documentId (chunkLines content)
              ((chunkLines content).length + 1) 0
              chunkInitState).currentChunk) documentId
            (chunkLoop encode documentId (chunkLines content)
              ((chunkLines content).length + 1) 0
              chunkInitState).chunkIndex
            (chunkLoop encode documentId (chunkLines content)
              ((chunkLines content).length + 1) 0
              chunkInitState).currentSection
            (chunkLoop encode documentId (chunkLines content)
              ((chunkLines content).length + 1) 0
              chunkInitState).currentSubsection]
      else (chunkLoop encode documentId (chunkLines content)
            ((chunkLines content).length + 1) 0 chunkInitState).chunks) := rfl
  rw [heq]
  by_cases hne : jsTrim (chunkLoop encode documentId (chunkLines content)
      ((chunkLines content).length + 1) 0 chunkInitState).currentChunk ≠ []
  · rw [if_pos hne]
    intro c hc
    rcases List.mem_append.mp hc with hc | hc
    · exact hfin.2.2 c hc
    · rw [List.mem_singleton] at hc
      subst hc
      exact finalChunk_good encode (chunkLines content) Htrim Hnil _ hfin
  · rw [if_neg hne]
    exact hfin.2.2

theorem wEnc_add (a b : Str) : wEnc (a ++ '\n' :: b) = wEnc a + 1 + wEnc b := by
  rw [wEnc, wEnc, wEnc, List.map_append, List.sum_append, List.map_cons,
    List.sum_cons]
  have h : (if ('\n' : Char) = 'z' then 50
      else if ('\n' : Char) = 'y' then 10 else 1) = 1 := by decide
  rw [h]
  omega

theorem wEnc_reverse (s : Str) : wEnc s.reverse = wEnc s := by
  rw [wEnc, wEnc, List.map_reverse, List.sum_reverse]

theorem wEnc_dropWhile (p : Char → Bool) (s : Str) :
    wEnc (s.dropWhile p) ≤ wEnc s := by
  induction s with
  | nil => exact Nat.le_refl _
  | cons c rest ih =>
    rw [List.dropWhile_cons]
    split
    · refine le_trans ih ?_
      rw [wEnc, wEnc, List.map_cons, List.sum_cons]
      omega
    · exact Nat.le_refl _

theorem wEnc_trim (s : Str) : wEnc (jsTrim s) ≤ wEnc s := by
  rw [jsTrim, wEnc_reverse]
  refine le_trans (wEnc_dropWhile _ _) ?_
  rw [wEnc_reverse]
  exact wEnc_dropWhile _ _

/-- Claim C3, the claim as stated fails.  Under the line-additive encoder
`wEnc`, document `docA` chunks into two pieces whose first (non-last) chunk
holds 400 > 350 tokens yet is plain prose, not a structural unit; document
`docB` chunks into three pieces whose middle (non-last) chunk holds
388 > 350 tokens and is an overlap carry plus a table block, again not a
single structural unit (its first line is prose). -/
theorem C3_counterexample :
    (chunkDocument wEnc docA "d".data).map
        (fun c => (c.tokenCount, isSingleStructuralUnit c.content)) =
      [(400, false), (2, false)] ∧
    (chunkDocument wEnc docB "d".data).map
        (fun c => (c.tokenCount, isSingleStructuralUnit c.content)) =
      [(338, false), (388, false), (55, false)] ∧
    chunkSizeConfig < 388 :=
  ⟨by decide, by decide, by decide⟩

/-- Witness for the corrected chunk-budget claim at the concrete encoder
`wEnc` and a concrete document. -/
theorem C3_witness :
    ∃ c, c ∈ chunkDocument wEnc "hello".data "d".data ∧
      (c.tokenCount ≤ chunkSizeConfig ∨
        OverlapRestartForm wEnc (chunkLines "hello".data) c.content) := by
  have hne : chunkDocument wEnc "hello".data "d".data ≠ [] := by decide
  exact ⟨_, List.head_mem hne, C3_chunk_budget wEnc "hello".data "d".data
    wEnc_add wEnc_trim rfl _ (List.head_mem hne)⟩
